import Mathlib

/-!
Verification of the runner-chaser decision engine (src/python/runner_chaser.py).

This file gives a shallow embedding of the program's data model and operations:
pure Python functions become Lean functions, the mutable objects (characters,
game, planner memo) become explicit state passed in and returned, Python sets
become `Finset`, Python dicts become association lists in insertion order, and
the two places where the source can loop (the A* `while` loop and the recursive
path reconstruction) take an explicit fuel argument, returning `none` when the
fuel runs out; termination theorems show suitable fuel exists.

Machine integers do not overflow here (Python ints are unbounded), so grid
coordinates are `Int` and counts are `Nat`.
-/

/-- A grid coordinate, the Python tuple (x, y). -/
abbrev Pos := Int × Int

/-- The `Grid` class: only the `size` field. -/
structure Grid where
  size : Pos
deriving DecidableEq, Repr

/-- `Grid.contains_coords`: `(coords[0] < size[0] and coords[1] < size[1]) and
(coords[0] >= 0 and coords[1] >= 0)`. -/
def Grid.contains_coords (g : Grid) (coords : Pos) : Bool :=
  (coords.1 < g.size.1 && coords.2 < g.size.2) && (0 ≤ coords.1 && 0 ≤ coords.2)

/-- The Manhattan offset `|ax-bx| + |ay-by|`, as used by `Grid.distance`. -/
def manhattan (a b : Pos) : Nat :=
  (a.1 - b.1).natAbs + (a.2 - b.2).natAbs

/-- `Grid.distance`: `ceil((xdiff + ydiff) / moves_per_turn)`.  For
`moves_per_turn ≥ 1` the Nat formula `(s + m - 1) / m` is exactly the ceiling
of the Python float division; the source is never called with 0 (that would
raise ZeroDivisionError). -/
def Grid.distance (a b : Pos) (moves_per_turn : Nat) : Nat :=
  (manhattan a b + moves_per_turn - 1) / moves_per_turn

/-- The `Grid.Direction` enum. -/
inductive Direction where
  | north
  | east
  | south
  | west
deriving DecidableEq, Repr

/-- `Grid.direction(a, b)`: calculates which direction b is from a, returning a
primary and a secondary direction.  The source compares the *signed* offsets
`xdiff = a[0]-b[0]` and `ydiff = a[1]-b[1]` (`if xdiff >= ydiff`), and each
branch always assigns both components, so the result components are never
`none`; the `Option` return type mirrors the `direction = [None, None]`
initialisation of the source. -/
def Grid.direction (a b : Pos) : Option Direction × Option Direction :=
  let xdiff := a.1 - b.1
  let ydiff := a.2 - b.2
  if ydiff ≤ xdiff then
    -- "It's east or west"
    (some (if 0 ≤ xdiff then Direction.west else Direction.east),
     some (if 0 ≤ ydiff then Direction.north else Direction.south))
  else
    -- "It's north or south"
    (some (if 0 ≤ ydiff then Direction.north else Direction.south),
     some (if 0 ≤ xdiff then Direction.west else Direction.east))

/-- Modelled from the spec (for claim C8): "primary axis is whichever of x/y
has the larger offset (ties broken toward the x-axis, i.e., East/West wins ties
over North/South); secondary is the other axis's signed direction, or none if
that offset is zero."  The sign convention follows the source's output values
(West when b is at or to the left of a, North when b is at or above a). -/
def specDirection (a b : Pos) : Option Direction × Option Direction :=
  let adx := (a.1 - b.1).natAbs
  let ady := (a.2 - b.2).natAbs
  if ady ≤ adx then
    (some (if b.1 ≤ a.1 then Direction.west else Direction.east),
     if ady = 0 then none
     else some (if b.2 ≤ a.2 then Direction.north else Direction.south))
  else
    (some (if b.2 ≤ a.2 then Direction.north else Direction.south),
     if adx = 0 then none
     else some (if b.1 ≤ a.1 then Direction.west else Direction.east))

/-- `Grid.next_pos(a, b, max_moves_per_turn)`: one greedy step from a toward b
("Move y first if they're equal").  `moves = diff if max_moves_per_turn > diff
else max_moves_per_turn`. -/
def Grid.next_pos (a b : Pos) (max_moves_per_turn : Nat) : Pos :=
  let diff_x := (a.1 - b.1).natAbs
  let diff_y := (a.2 - b.2).natAbs
  if diff_x ≤ diff_y then
    let moves : Int := if diff_y < max_moves_per_turn then diff_y else max_moves_per_turn
    if a.2 < b.2 then (a.1, a.2 + moves) else (a.1, a.2 - moves)
  else
    let moves : Int := if diff_x < max_moves_per_turn then diff_x else max_moves_per_turn
    if a.1 < b.1 then (a.1 + moves, a.2) else (a.1 - moves, a.2)

/-- The `MovingCharacter` state (plus the `Score` mixin's counter, modelled as
a plain field per spec §9; the colour field is rendering-only and omitted). -/
structure MovingCharacter where
  position : Pos
  max_moves_per_turn : Nat := 1
  score : Nat := 0
deriving DecidableEq, Repr

/-- The three reasons `MovingCharacter.IllegalMove` is raised. -/
inductive IllegalMove where
  | diagonal
  | tooManyMoves
  | offGrid
deriving DecidableEq, Repr

/-- `MovingCharacter.move`: either the updated character (position set to
`new_pos`) with no error, or the unchanged character paired with the raised
`IllegalMove`.  `if x_diff and y_diff` is Python truthiness: both offsets
nonzero. -/
def MovingCharacter.move (c : MovingCharacter) (new_pos : Pos) (grid : Grid) :
    MovingCharacter × Option IllegalMove :=
  let x_diff := (c.position.1 - new_pos.1).natAbs
  let y_diff := (c.position.2 - new_pos.2).natAbs
  if x_diff ≠ 0 ∧ y_diff ≠ 0 then
    (c, some IllegalMove.diagonal)
  else if c.max_moves_per_turn < x_diff ∨ c.max_moves_per_turn < y_diff then
    (c, some IllegalMove.tooManyMoves)
  else if ¬ grid.contains_coords new_pos then
    (c, some IllegalMove.offGrid)
  else
    ({ c with position := new_pos }, none)

/-- The `Apple` character: position and (decrementable, possibly negative)
shelf life. -/
structure Apple where
  position : Pos
  shelf_life : Int := 160
deriving DecidableEq, Repr

/-- The `Game` state that `tick` reads and mutates. -/
structure Game where
  runner : MovingCharacter
  chaser : MovingCharacter
  apples : List Apple
  win_score : Nat := 100
deriving DecidableEq, Repr

/-- The result of one `tick`: `Game.Lose` raised by the catch check at the top,
`Game.Win` / `Game.Lose` raised by the score checks at the bottom, or normal
fall-through. -/
inductive TickResult where
  | loseCaught
  | win
  | loseScore
  | continues
deriving DecidableEq, Repr

/-- The apple `for` loop inside `Game.tick`, processing apples from index `i`:
returns (runner score increments, chaser score increments, apples with shelf
life decremented, indices appended to `eaten_apples`).  The source appends
apple *objects*; since Python object equality is identity here, list indices
model the identities exactly (an index may occur twice: eaten and expired). -/
def apple_phase (runner_pos chaser_pos : Pos) :
    List Apple → Nat → Nat × Nat × List Apple × List Nat
  | [], _ => (0, 0, [], [])
  | a :: rest, i =>
    let eatR : Nat := if runner_pos = a.position then 1 else 0
    let eatC : Nat := if runner_pos = a.position then 0
                      else if chaser_pos = a.position then 1 else 0
    let eatenHere : List Nat :=
      if runner_pos = a.position ∨ chaser_pos = a.position then [i] else []
    let a' : Apple := { a with shelf_life := a.shelf_life - 1 }
    let expiredHere : List Nat := if a'.shelf_life < 0 then [i] else []
    let (rI, cI, rest', eaten) := apple_phase runner_pos chaser_pos rest (i + 1)
    (eatR + rI, eatC + cI, a' :: rest', eatenHere ++ expiredHere ++ eaten)

/-- `Game.tick`.  The `refill` parameter is the oracle for the randomized
`refill_apples` (it receives the surviving apples and returns the refilled
list); no theorem depends on its behaviour.  Removal of `eaten_apples` is by
index (Python removes the identical objects; duplicate indices are harmless,
matching the `if apple in self.apples` guard). -/
def Game.tick (g : Game) (refill : List Apple → List Apple) : TickResult × Game :=
  if g.chaser.position = g.runner.position then
    (TickResult.loseCaught, g)
  else
    let (rInc, cInc, apples2, eaten) :=
      apple_phase g.runner.position g.chaser.position g.apples 0
    let remaining := (apples2.enum.filter (fun ia => ia.1 ∉ eaten)).map (·.2)
    let apples3 := refill remaining
    let g' : Game :=
      { g with runner := { g.runner with score := g.runner.score + rInc },
               chaser := { g.chaser with score := g.chaser.score + cInc },
               apples := apples3 }
    if g.win_score ≤ g'.runner.score then (TickResult.win, g')
    else if g.win_score ≤ g'.chaser.score then (TickResult.loseScore, g')
    else (TickResult.continues, g')

/-- The `AStarNode` class.  The source constructor always stores `f = g + h`,
so `f` is the derived function `AStarNode.f` here. -/
structure AStarNode where
  pos : Pos
  g : Nat
  h : Nat
deriving DecidableEq, Repr

/-- `self.f = g + h` from the `AStarNode` constructor. -/
def AStarNode.f (n : AStarNode) : Nat := n.g + n.h

/-- The planner's dicts keyed by position (`open_set`, `closed_set`,
`came_from`), modelled as association lists in insertion order. -/
abbrev NodeMap := List (Pos × AStarNode)

/-- Dict lookup `d[k]` / `k in d`. -/
def alookup : NodeMap → Pos → Option AStarNode
  | [], _ => none
  | (k, v) :: t, p => if k = p then some v else alookup t p

/-- Dict store `d[k] = v`: replace the entry if the key is present, else
append. -/
def aupdate : NodeMap → Pos → AStarNode → NodeMap
  | [], p, n => [(p, n)]
  | (k, v) :: t, p, n => if k = p then (p, n) :: t else (k, v) :: aupdate t p n

/-- Dict delete `del d[k]` (identity when the key is absent; the source only
deletes present keys). -/
def aremove : NodeMap → Pos → NodeMap
  | [], _ => []
  | (k, v) :: t, p => if k = p then t else (k, v) :: aremove t p

/-- `sorted(open_set.iteritems(), key=lambda n: n[1].f)[0]`: the first entry
of minimal f.  Python's sort is stable, so this is the earliest minimal entry
in iteration order; a Python 2 dict iterates in hash-table order, which this
embedding replaces by insertion order (see the C9 discussion: the tie order is
not specified by the source, and no theorem below depends on which minimal
entry is picked). -/
def selectMin : NodeMap → Option (Pos × AStarNode)
  | [] => none
  | x :: t => some (t.foldl (fun best y => if y.2.f < best.2.f then y else best) x)

/-- The mutation `for i in WALLS: avoid_set.add(i)` at the top of
`Grid.surrounding_valid_coords`.  `WALLS` is the module-level obstacle list,
passed explicitly here. -/
def addWalls (walls : List Pos) (avoid : Finset Pos) : Finset Pos :=
  walls.foldl (fun s i => insert i s) avoid

/-- `Grid.surrounding_valid_coords(coords, radius, avoid_set)`: the four
straight-line ray cells at offsets 1..radius, kept when in bounds and not in
the (wall-augmented) avoid set.  The second component is the avoid set after
the in-place mutation, which the caller's aliased set receives. -/
def Grid.surrounding_valid_coords (g : Grid) (walls : List Pos) (coords : Pos)
    (radius : Nat) (avoid_set : Finset Pos) : List Pos × Finset Pos :=
  let avoid := addWalls walls avoid_set
  (((List.range radius).flatMap fun i =>
      ([(coords.1 + (1 + (i : Int)), coords.2),
        (coords.1 - (1 + (i : Int)), coords.2),
        (coords.1, coords.2 + (1 + (i : Int))),
        (coords.1, coords.2 - (1 + (i : Int)))] : List Pos).filter
        fun c => g.contains_coords c && decide (c ∉ avoid)),
   avoid)

/-- The greedy walk inside `Player.heuristic_distance`
(`while pos != target: cost += 1; pos = next_pos(...)`), with fuel.  Each
`next_pos` step reduces the Manhattan offset by at least one when the step
budget is positive, so `manhattan pos target` fuel always suffices; the
source is only called with positive budgets. -/
def hWalk (max_moves : Nat) (target : Pos) : Nat → Pos → Nat
  | 0, _ => 0
  | fuel + 1, pos =>
    if pos = target then 0
    else 1 + hWalk max_moves target fuel (Grid.next_pos pos target max_moves)

/-- `Player.heuristic_distance(target_coords, from_coords)`: the number of
greedy `next_pos` steps from `from_coords` to `target_coords`.  (The source
also computes `Grid.distance` into a local that is never used.) -/
def heuristic_distance (max_moves : Nat) (target_coords from_coords : Pos) : Nat :=
  hWalk max_moves target_coords (manhattan from_coords target_coords) from_coords

/-- `Player.create_a_star_node(nc, pos, target_coords)`. -/
def create_a_star_node (max_moves : Nat) (nc : AStarNode) (pos target_coords : Pos) :
    AStarNode :=
  { pos := pos,
    g := Grid.distance nc.pos pos max_moves + nc.g,
    h := heuristic_distance max_moves target_coords pos }

/-- `Player.reconstruct_path`: walk `came_from` back from the goal node, with
fuel.  Call sites pass `came_from.length` fuel: the recorded g values strictly
decrease along the walk, so it visits pairwise distinct keys and ends within
that bound. -/
def reconstruct_path (came_from : NodeMap) : Nat → AStarNode → List AStarNode
  | 0, nc => [nc]
  | fuel + 1, nc =>
    match alookup came_from nc.pos with
    | some prev => reconstruct_path came_from fuel prev ++ [nc]
    | none => [nc]

/-- The mutable state of one `find_path` search. -/
structure SearchState where
  open_set : NodeMap
  closed_set : NodeMap
  came_from : NodeMap
  avoid : Finset Pos
deriving DecidableEq

/-- The `for ns in node_successors` body of the A* loop: skip a successor
that is already closed or open with no worse g; otherwise re-open it, record
`came_from[ns.pos] = nc`, and either return the reconstructed path (target
reached) or insert it into the open set. -/
def process_successors (target_coords : Pos) (nc : AStarNode) :
    List AStarNode → SearchState → Sum (List AStarNode × SearchState) SearchState
  | [], st => Sum.inr st
  | ns :: rest, st =>
    let skipClosed : Bool := match alookup st.closed_set ns.pos with
      | some cn => decide (cn.g ≤ ns.g)
      | none => false
    let skipOpen : Bool := match alookup st.open_set ns.pos with
      | some onode => decide (onode.g ≤ ns.g)
      | none => false
    if skipClosed then process_successors target_coords nc rest st
    else if skipOpen then process_successors target_coords nc rest st
    else
      let st1 : SearchState :=
        { st with closed_set := aremove st.closed_set ns.pos,
                  came_from := aupdate st.came_from ns.pos nc }
      if ns.pos = target_coords then
        Sum.inl (reconstruct_path st1.came_from st1.came_from.length ns, st1)
      else
        process_successors target_coords nc rest
          { st1 with open_set := aupdate st1.open_set ns.pos ns }

/-- One iteration of the `while len(open_set)` loop: pop the minimal-f node
into the closed set, generate its surrounding valid coordinates (mutating the
avoid set), and process the successor nodes.  `Sum.inl` is a return from the
loop (`none` = the open set was empty), `Sum.inr` continues. -/
def searchStep (g : Grid) (walls : List Pos) (max_moves : Nat) (target_coords : Pos)
    (st : SearchState) : Sum (Option (List AStarNode) × SearchState) SearchState :=
  match selectMin st.open_set with
  | none => Sum.inl (none, st)
  | some (_, nc) =>
    let st1 : SearchState :=
      { st with open_set := aremove st.open_set nc.pos,
                closed_set := aupdate st.closed_set nc.pos nc }
    let svcR := g.surrounding_valid_coords walls nc.pos max_moves st1.avoid
    let st2 : SearchState := { st1 with avoid := svcR.2 }
    let node_successors := svcR.1.map fun c => create_a_star_node max_moves nc c target_coords
    match process_successors target_coords nc node_successors st2 with
    | Sum.inl (path, stR) => Sum.inl (some path, stR)
    | Sum.inr st3 => Sum.inr st3

/-- The `while len(open_set)` loop with fuel (`none` = fuel exhausted; the
termination theorems show sufficient fuel exists). -/
def searchLoop (g : Grid) (walls : List Pos) (max_moves : Nat) (target_coords : Pos) :
    Nat → SearchState → Option (Option (List AStarNode) × SearchState)
  | 0, _ => none
  | fuel + 1, st =>
    match searchStep g walls max_moves target_coords st with
    | Sum.inl r => some r
    | Sum.inr st2 => searchLoop g walls max_moves target_coords fuel st2

/-- The per-player planner memo from `Player.__init__` (`self.path`,
`self.path_progress`, `self.avoid_set`), plus a search call counter
instrumenting the spec's "verifiable via a call counter" (incremented exactly
when the A* search section runs). -/
structure Player where
  path : Option (List AStarNode) := none
  path_progress : Nat := 0
  avoid_set : Finset Pos := ∅
  search_count : Nat := 0
deriving DecidableEq

/-- `Player.interrupt_path`: true iff some interruption predicate fired.  The
predicates read game state; each call site passes their values at that call. -/
def interrupt_path (interruptions : List Bool) : Bool := interruptions.any id

/-- The part of `Player.find_path` after the memo check: the
`if not target_coords` early return, then the A* search.  On success the memo
is set (path cached, progress reset); on an emptied open set the start node
alone is returned and the memo is left as is.  The avoid-set field receives
the in-place mutation performed by `surrounding_valid_coords`. -/
def find_path_search (g : Grid) (walls : List Pos) (char_pos : Pos) (max_moves : Nat)
    (target_coords : Option Pos) (fuel : Nat) (pl : Player) :
    Option (List AStarNode × Player) :=
  match target_coords with
  | none => some ([⟨char_pos, 0, 0⟩], pl)
  | some target =>
    let start_node : AStarNode := ⟨char_pos, 0, heuristic_distance max_moves target char_pos⟩
    let st0 : SearchState :=
      { open_set := [(start_node.pos, start_node)], closed_set := [], came_from := [],
        avoid := pl.avoid_set }
    let pl1 : Player := { pl with search_count := pl.search_count + 1 }
    match searchLoop g walls max_moves target fuel st0 with
    | none => none
    | some (some path, st) =>
      some (path, { pl1 with path := some path, path_progress := 0, avoid_set := st.avoid })
    | some (none, st) => some ([start_node], { pl1 with avoid_set := st.avoid })

/-- `Player.find_path(target_coords)`: advance the progress cursor; if a
cached path exists, the cursor is within it, and no interruption predicate
fired, return the cached path's suffix; otherwise search. -/
def find_path (g : Grid) (walls : List Pos) (char_pos : Pos) (max_moves : Nat)
    (interruptions : List Bool) (target_coords : Option Pos) (fuel : Nat)
    (pl0 : Player) : Option (List AStarNode × Player) :=
  let pl : Player := { pl0 with path_progress := pl0.path_progress + 1 }
  match pl.path with
  | some p =>
    if p.isEmpty = false ∧ pl.path_progress < p.length ∧
        interrupt_path interruptions = false then
      some (p.drop pl.path_progress, pl)
    else find_path_search g walls char_pos max_moves target_coords fuel pl
  | none => find_path_search g walls char_pos max_moves target_coords fuel pl

/-- One move step of the planner's search graph: q is among the surrounding
valid coordinates of p for the given radius (in bounds, not a wall, not in
the supplied avoidance set).  Radius 1 gives the single-cell adjacency used
to state reachability "through cells outside both sets". -/
def valid_step (g : Grid) (walls : List Pos) (avoid : Finset Pos) (radius : Nat)
    (p q : Pos) : Prop :=
  q ∈ (g.surrounding_valid_coords walls p radius avoid).1

/-- Reachability along `valid_step` moves. -/
def Reachable (g : Grid) (walls : List Pos) (avoid : Finset Pos) (radius : Nat)
    (p q : Pos) : Prop :=
  Relation.ReflTransGen (valid_step g walls avoid radius) p q

/-- Two path nodes in sequence differ along exactly one axis, by at least 1
and at most the step budget. -/
def one_axis_step (max_moves : Nat) (a b : Pos) : Prop :=
  (a.2 = b.2 ∧ 1 ≤ (a.1 - b.1).natAbs ∧ (a.1 - b.1).natAbs ≤ max_moves) ∨
  (a.1 = b.1 ∧ 1 ≤ (a.2 - b.2).natAbs ∧ (a.2 - b.2).natAbs ≤ max_moves)

/-- All consecutive node pairs of a path satisfy `one_axis_step`. -/
def valid_steps (max_moves : Nat) (path : List AStarNode) : Prop :=
  List.Chain' (fun x y => one_axis_step max_moves x.pos y.pos) path

/-- The `chaser_danger_zone=3` default of `RunnerPlayer.__init__`. -/
def chaser_danger_zone_default : Nat := 3

/-- The avoid-set assignment in `RunnerPlayer.find_target_coords`:
`self.avoid_set = set(self.game.grid.surrounding_valid_coords(
self.game.chaser.position, 2))` — hard-coded radius 2, called with the
module-level shared default avoid set (`shared_default`; in the program its
contents are always a subset of WALLS, since only these omitted-argument
calls mutate it). -/
def runner_avoid_set (g : Grid) (walls : List Pos) (chaser_pos : Pos)
    (shared_default : Finset Pos) : Finset Pos :=
  ((g.surrounding_valid_coords walls chaser_pos 2 shared_default).1).toFinset

/-- Modelled from the spec (for claim C6): the avoidance set the claim
describes — "all in-bounds, non-obstacle cells within the configured danger
radius (chaser_danger_zone) of the Pursuer's current position".  Distance is
the source's `Grid.distance` with the default budget 1 (the Manhattan
offset), as used by `in_danger_zone`. -/
def specEvaderAvoid (g : Grid) (walls : List Pos) (chaser_pos : Pos)
    (danger_zone : Nat) (c : Pos) : Prop :=
  g.contains_coords c = true ∧ c ∉ walls ∧ Grid.distance chaser_pos c 1 ≤ danger_zone

/-- The `find_path` memo condition (with the already advanced progress
cursor): a nonempty cached path, cursor within it, and no interruption. -/
def cache_valid (pl : Player) (interruptions : List Bool) : Bool :=
  match pl.path with
  | some p => !p.isEmpty && decide (pl.path_progress < p.length) &&
      !(interrupt_path interruptions)
  | none => false

/-- The keys of a planner dict, as a finite set. -/
def keysF (l : NodeMap) : Finset Pos := (l.map Prod.fst).toFinset

/-- The sum of the g values stored in a planner dict (termination measure
component). -/
def gsum (l : NodeMap) : Nat := (l.map (fun e => e.2.g)).sum

/-- All in-bounds cells of the grid. -/
def cellsF (g : Grid) : Finset Pos :=
  Finset.Icc 0 (g.size.1 - 1) ×ˢ Finset.Icc 0 (g.size.2 - 1)

/-- The positions the search has touched: keys of the open or closed set. -/
def domF (st : SearchState) : Finset Pos := keysF st.open_set ∪ keysF st.closed_set

/-- Termination measure, first component: in-bounds cells never touched. -/
def measU (g : Grid) (st : SearchState) : Nat := (cellsF g \ domF st).card

/-- Termination measure, second component: total stored g. -/
def measS (st : SearchState) : Nat := gsum st.open_set + gsum st.closed_set

/-- Termination measure, third component: open-set size. -/
def measO (st : SearchState) : Nat := st.open_set.length

/-- Structural well-formedness of the search dicts: keys are unique, the open
and closed sets are disjoint, and every stored node sits at its key.  All hold
by construction of the loop. -/
structure SearchWF (st : SearchState) : Prop where
  nodup_open : (st.open_set.map Prod.fst).Nodup
  nodup_closed : (st.closed_set.map Prod.fst).Nodup
  disj : ∀ p : Pos, p ∈ keysF st.open_set → p ∉ keysF st.closed_set
  km_open : ∀ pr ∈ st.open_set, (pr.2).pos = pr.1
  km_closed : ∀ pr ∈ st.closed_set, (pr.2).pos = pr.1

/-- Every `came_from` edge records an actual generated-successor move (with
the canonical avoid set `A0` the search was started from). -/
def came_from_inv (g : Grid) (walls : List Pos) (max_moves : Nat) (A0 : Finset Pos)
    (st : SearchState) : Prop :=
  ∀ p n, alookup st.came_from p = some n →
    p ∈ (g.surrounding_valid_coords walls n.pos max_moves A0).1

/-- The state's avoid set stays interchangeable with the initial one
(everything added to it was a wall). -/
def avoid_inv (walls : List Pos) (A0 : Finset Pos) (st : SearchState) : Prop :=
  addWalls walls st.avoid = addWalls walls A0

/-- Every touched position is reachable from the start in the planner's own
move graph. -/
def reach_inv (g : Grid) (walls : List Pos) (max_moves : Nat) (A0 : Finset Pos)
    (start : Pos) (st : SearchState) : Prop :=
  ∀ p ∈ domF st, Reachable g walls A0 max_moves start p

/-- Every closed position had each of its valid successors touched. -/
def closed_succ_inv (g : Grid) (walls : List Pos) (max_moves : Nat) (A0 : Finset Pos)
    (st : SearchState) : Prop :=
  ∀ p ∈ keysF st.closed_set,
    ∀ c ∈ (g.surrounding_valid_coords walls p max_moves A0).1, c ∈ domF st

/-- The target was never touched (it would have caused a return). -/
def target_free (t : Pos) (st : SearchState) : Prop := t ∉ domF st

/-! ## Theorems -/

/-- C7: `MovingCharacter.move` rejects a move (raising IllegalMove, here the
`some`-error component) iff the move changes both axes, or its single-axis
displacement exceeds `max_moves_per_turn`, or the new position is outside the
grid; on rejection the character is unchanged, otherwise its position becomes
exactly the proposed position (and nothing else changes). -/
theorem move_illegal_iff (c : MovingCharacter) (new_pos : Pos) (grid : Grid) :
    (((c.move new_pos grid).2 ≠ none) ↔
      (((c.position.1 - new_pos.1).natAbs ≠ 0 ∧ (c.position.2 - new_pos.2).natAbs ≠ 0) ∨
        c.max_moves_per_turn < (c.position.1 - new_pos.1).natAbs ∨
        c.max_moves_per_turn < (c.position.2 - new_pos.2).natAbs ∨
        grid.contains_coords new_pos = false)) ∧
    ((c.move new_pos grid).2 ≠ none → (c.move new_pos grid).1 = c) ∧
    ((c.move new_pos grid).2 = none →
      (c.move new_pos grid).1.position = new_pos ∧
      (c.move new_pos grid).1.max_moves_per_turn = c.max_moves_per_turn ∧
      (c.move new_pos grid).1.score = c.score) := by
  unfold MovingCharacter.move
  refine ⟨?_, ?_, ?_⟩ <;>
    · dsimp only
      split
      · simp_all
      · split
        · simp_all
          try tauto
        · split <;> simp_all <;> try tauto

/-- C8 counterexample: with a = (0,0) and b = (1,0) the target is due east (x
offset 1, y offset 0), so the claim predicts primary East and no secondary
(`specDirection`), but `Grid.direction` compares the signed offsets
(-1 >= 0 is false) and returns primary North, secondary East. -/
theorem direction_claim_counterexample :
    Grid.direction ((0, 0) : Pos) ((1, 0) : Pos) =
      (some Direction.north, some Direction.east) ∧
    specDirection ((0, 0) : Pos) ((1, 0) : Pos) = (some Direction.east, none) ∧
    Grid.direction ((0, 0) : Pos) ((1, 0) : Pos) ≠
      specDirection ((0, 0) : Pos) ((1, 0) : Pos) := by
  refine ⟨by decide, by decide, by decide⟩

/-- C8 amended: `Grid.direction` picks the primary axis by comparing the
*signed* offsets xdiff = ax - bx and ydiff = ay - by (x wins when
xdiff ≥ ydiff), not their absolute values; within the chosen branch the
primary and the secondary direction are picked by the sign of the respective
offset, and the secondary is never `none` (a zero offset yields North resp.
West, not `none`). -/
theorem direction_signed_characterization (a b : Pos) :
    Grid.direction a b =
      (if a.2 - b.2 ≤ a.1 - b.1 then
        (some (if 0 ≤ a.1 - b.1 then Direction.west else Direction.east),
         some (if 0 ≤ a.2 - b.2 then Direction.north else Direction.south))
      else
        (some (if 0 ≤ a.2 - b.2 then Direction.north else Direction.south),
         some (if 0 ≤ a.1 - b.1 then Direction.west else Direction.east))) ∧
    (Grid.direction a b).1 ≠ none ∧ (Grid.direction a b).2 ≠ none := by
  unfold Grid.direction
  dsimp only
  split <;> simp

/-- C4 counterexample: a tick in which both agents finish at or above the win
threshold.  Grid-independent state: win_score = 1, runner at (0,0) on one
apple, chaser at (3,3) on another; both scores reach 1, and the outcome is
`TickResult.win` (the Runner/Evader wins, the source checks
`self.runner.score >= self.win_score` first), not a Pursuer win as claimed. -/
theorem tick_threshold_order_counterexample :
    (Game.tick
        { runner := { position := (0, 0) },
          chaser := { position := (3, 3) },
          apples := [{ position := (0, 0), shelf_life := 5 },
                     { position := (3, 3), shelf_life := 5 }],
          win_score := 1 } id).1 = TickResult.win ∧
    ((Game.tick
        { runner := { position := (0, 0) },
          chaser := { position := (3, 3) },
          apples := [{ position := (0, 0), shelf_life := 5 },
                     { position := (3, 3), shelf_life := 5 }],
          win_score := 1 } id).2.runner.score = 1 ∧
     (Game.tick
        { runner := { position := (0, 0) },
          chaser := { position := (3, 3) },
          apples := [{ position := (0, 0), shelf_life := 5 },
                     { position := (3, 3), shelf_life := 5 }],
          win_score := 1 } id).2.chaser.score = 1) ∧
    TickResult.win ≠ TickResult.loseScore ∧ TickResult.win ≠ TickResult.loseCaught := by
  refine ⟨by decide, ⟨by decide, by decide⟩, by decide, by decide⟩

/-- C4 amended: in every tick that does not end immediately with the catch
check, the Evader's (runner's) threshold crossing is checked before the
Pursuer's (chaser's): the tick ends with an Evader win iff the runner's
post-tick score reaches the threshold, and with a Pursuer score win iff the
runner's does not and the chaser's does; when both cross in the same tick the
outcome is therefore an Evader win. -/
theorem tick_threshold_runner_checked_first (g : Game) (refill : List Apple → List Apple)
    (hpos : g.chaser.position ≠ g.runner.position) :
    ((g.tick refill).1 = TickResult.win ↔
      g.win_score ≤ (g.tick refill).2.runner.score) ∧
    ((g.tick refill).1 = TickResult.loseScore ↔
      ((g.tick refill).2.runner.score < g.win_score ∧
        g.win_score ≤ (g.tick refill).2.chaser.score)) := by
  unfold Game.tick
  rw [if_neg hpos]
  dsimp only
  constructor
  · split
    · simp_all
    · split <;> simp_all
  · split
    · simp_all
    · split <;> simp_all [Nat.lt_iff_add_one_le, Nat.not_le]

/-- Witness for `tick_threshold_runner_checked_first` at the concrete
counterexample state. -/
theorem tick_threshold_runner_checked_first_witness :
    ((Game.tick
        { runner := { position := (0, 0) },
          chaser := { position := (3, 3) },
          apples := [{ position := (0, 0), shelf_life := 5 },
                     { position := (3, 3), shelf_life := 5 }],
          win_score := 1 } id).1 = TickResult.win ↔
      (1 : Nat) ≤ (Game.tick
        { runner := { position := (0, 0) },
          chaser := { position := (3, 3) },
          apples := [{ position := (0, 0), shelf_life := 5 },
                     { position := (3, 3), shelf_life := 5 }],
          win_score := 1 } id).2.runner.score) :=
  (tick_threshold_runner_checked_first
    { runner := { position := (0, 0) },
      chaser := { position := (3, 3) },
      apples := [{ position := (0, 0), shelf_life := 5 },
                 { position := (3, 3), shelf_life := 5 }],
      win_score := 1 } id (by decide)).1

/-- C5 counterexample: runner and chaser both stand on the apple at (2,2).
The tick raises Lose ("caught") at its very first check and returns the game
unchanged: neither score increments and the apple is not removed, contradicting
the claim that each agent scores once and the apple is consumed. -/
theorem tick_shared_apple_counterexample :
    Game.tick
        { runner := { position := (2, 2) },
          chaser := { position := (2, 2) },
          apples := [{ position := (2, 2), shelf_life := 5 }],
          win_score := 100 } id =
      (TickResult.loseCaught,
        { runner := { position := (2, 2) },
          chaser := { position := (2, 2) },
          apples := [{ position := (2, 2), shelf_life := 5 }],
          win_score := 100 }) ∧
    (Game.tick
        { runner := { position := (2, 2) },
          chaser := { position := (2, 2) },
          apples := [{ position := (2, 2), shelf_life := 5 }],
          win_score := 100 } id).2.runner.score = 0 ∧
    (Game.tick
        { runner := { position := (2, 2) },
          chaser := { position := (2, 2) },
          apples := [{ position := (2, 2), shelf_life := 5 }],
          win_score := 100 } id).2.apples ≠ [] := by
  refine ⟨by decide, by decide, by decide⟩

/-- C5 amended: whenever both agents occupy the same cell as some apple, the
two agents necessarily share a cell, so the tick ends immediately with the
catch (Pursuer wins): the game state is returned unchanged, no score
increments, and the apple is not removed.  (The per-apple loop's elif also
means a single apple is never scored by both agents even in isolation, but
the catch check makes the claimed situation unreachable outright.) -/
theorem tick_shared_cell_caught (g : Game) (refill : List Apple → List Apple)
    (apple : Apple) (_hmem : apple ∈ g.apples)
    (hr : g.runner.position = apple.position)
    (hc : g.chaser.position = apple.position) :
    g.tick refill = (TickResult.loseCaught, g) := by
  unfold Game.tick
  rw [if_pos (hc.trans hr.symm)]

/-- Witness for `tick_shared_cell_caught` at a concrete state. -/
theorem tick_shared_cell_caught_witness :
    Game.tick
        { runner := { position := (2, 2) },
          chaser := { position := (2, 2) },
          apples := [{ position := (2, 2), shelf_life := 5 }],
          win_score := 100 } (fun l => l) =
      (TickResult.loseCaught,
        { runner := { position := (2, 2) },
          chaser := { position := (2, 2) },
          apples := [{ position := (2, 2), shelf_life := 5 }],
          win_score := 100 }) :=
  tick_shared_cell_caught _ _ { position := (2, 2), shelf_life := 5 }
    (by decide) (by decide) (by decide)

/-- Membership in the wall-augmented avoid set. -/
theorem addWalls_mem (walls : List Pos) (A : Finset Pos) (p : Pos) :
    p ∈ addWalls walls A ↔ p ∈ A ∨ p ∈ walls := by
  induction walls generalizing A with
  | nil => simp [addWalls]
  | cons w ws ih =>
    show p ∈ addWalls ws (insert w A) ↔ _
    rw [ih]
    simp [Finset.mem_insert]
    tauto

/-- Adding the walls twice is the same as adding them once. -/
theorem addWalls_idem (walls : List Pos) (A : Finset Pos) :
    addWalls walls (addWalls walls A) = addWalls walls A := by
  apply Finset.ext
  intro p
  simp [addWalls_mem]

/-- The mutated avoid set returned by `surrounding_valid_coords` is exactly
the input set with all walls inserted. -/
theorem surrounding_valid_coords_snd (g : Grid) (walls : List Pos) (coords : Pos)
    (radius : Nat) (A : Finset Pos) :
    (g.surrounding_valid_coords walls coords radius A).2 = addWalls walls A := rfl

/-- Membership in the list returned by `surrounding_valid_coords`. -/
theorem mem_surrounding_valid_coords (g : Grid) (walls : List Pos) (coords : Pos)
    (radius : Nat) (A : Finset Pos) (c : Pos) :
    c ∈ (g.surrounding_valid_coords walls coords radius A).1 ↔
      (∃ i < radius,
        c ∈ ([(coords.1 + (1 + (i : Int)), coords.2),
              (coords.1 - (1 + (i : Int)), coords.2),
              (coords.1, coords.2 + (1 + (i : Int))),
              (coords.1, coords.2 - (1 + (i : Int)))] : List Pos)) ∧
      g.contains_coords c = true ∧ c ∉ A ∧ c ∉ walls := by
  unfold Grid.surrounding_valid_coords
  simp only [List.mem_flatMap, List.mem_filter, List.mem_range, Bool.and_eq_true,
    decide_eq_true_eq, addWalls_mem]
  constructor
  · rintro ⟨i, hi, hmem, hc, hav⟩
    exact ⟨⟨i, hi, hmem⟩, hc, fun h => hav (Or.inl h), fun h => hav (Or.inr h)⟩
  · rintro ⟨⟨i, hi, hmem⟩, hc, hA, hW⟩
    exact ⟨i, hi, hmem, hc, fun h => h.elim hA hW⟩

/-- The successor loop never touches the avoid set (continue case). -/
theorem process_successors_avoid_inr (target : Pos) (nc : AStarNode) :
    ∀ (succs : List AStarNode) (st st' : SearchState),
      process_successors target nc succs st = Sum.inr st' → st'.avoid = st.avoid := by
  intro succs
  induction succs with
  | nil =>
    intro st st' h
    cases h
    rfl
  | cons ns rest ih =>
    intro st st' h
    unfold process_successors at h
    dsimp only at h
    split at h
    · exact ih _ _ h
    · split at h
      · exact ih _ _ h
      · split at h
        · cases h
        · have h2 := ih _ _ h
          exact h2

/-- The successor loop never touches the avoid set (return case). -/
theorem process_successors_avoid_inl (target : Pos) (nc : AStarNode) :
    ∀ (succs : List AStarNode) (st : SearchState) (path : List AStarNode)
      (stR : SearchState),
      process_successors target nc succs st = Sum.inl (path, stR) → stR.avoid = st.avoid := by
  intro succs
  induction succs with
  | nil =>
    intro st path stR h
    cases h
  | cons ns rest ih =>
    intro st path stR h
    unfold process_successors at h
    dsimp only at h
    split at h
    · exact ih _ _ _ h
    · split at h
      · exact ih _ _ _ h
      · split at h
        · cases h
          rfl
        · have h2 := ih _ _ _ h
          exact h2

/-- `selectMin` returns nothing exactly on the empty open set. -/
theorem selectMin_eq_none (l : NodeMap) : selectMin l = none ↔ l = [] := by
  cases l <;> simp [selectMin]

/-- One loop iteration that continues sets the avoid set to its
wall-augmented version. -/
theorem searchStep_avoid_inr (g : Grid) (walls : List Pos) (max_moves : Nat)
    (target : Pos) (st st' : SearchState)
    (h : searchStep g walls max_moves target st = Sum.inr st') :
    st'.avoid = addWalls walls st.avoid := by
  unfold searchStep at h
  split at h
  · cases h
  · dsimp only at h
    split at h
    · cases h
    · cases h
      exact process_successors_avoid_inr _ _ _ _ _ (by assumption)

/-- One loop iteration that returns a found path likewise reports the
wall-augmented avoid set. -/
theorem searchStep_avoid_found (g : Grid) (walls : List Pos) (max_moves : Nat)
    (target : Pos) (st stR : SearchState) (path : List AStarNode)
    (h : searchStep g walls max_moves target st = Sum.inl (some path, stR)) :
    stR.avoid = addWalls walls st.avoid := by
  unfold searchStep at h
  split at h
  · cases h
  · dsimp only at h
    split at h
    · rename_i hproc
      cases h
      exact process_successors_avoid_inl _ _ _ _ _ _ hproc
    · cases h

/-- A loop iteration can only return `none` when the open set is empty, and
then it returns the state unchanged. -/
theorem searchStep_none (g : Grid) (walls : List Pos) (max_moves : Nat)
    (target : Pos) (st stR : SearchState)
    (h : searchStep g walls max_moves target st = Sum.inl (none, stR)) :
    stR = st ∧ st.open_set = [] := by
  unfold searchStep at h
  split at h
  · cases h
    exact ⟨rfl, (selectMin_eq_none _).1 (by assumption)⟩
  · dsimp only at h
    split at h
    · cases h
    · cases h

/-- Across a whole search the avoid set either stays untouched (no iteration
ran) or becomes its wall-augmented version. -/
theorem searchLoop_avoid (g : Grid) (walls : List Pos) (max_moves : Nat) (target : Pos) :
    ∀ (fuel : Nat) (st : SearchState) (r : Option (List AStarNode)) (stF : SearchState),
      searchLoop g walls max_moves target fuel st = some (r, stF) →
      stF.avoid = st.avoid ∨ stF.avoid = addWalls walls st.avoid := by
  intro fuel
  induction fuel with
  | zero => intro st r stF h; cases h
  | succ n ih =>
    intro st r stF h
    unfold searchLoop at h
    cases hstep : searchStep g walls max_moves target st with
    | inl res =>
      obtain ⟨r0, stR⟩ := res
      rw [hstep] at h
      dsimp only at h
      cases h
      cases r with
      | none =>
        exact Or.inl
          (congrArg SearchState.avoid (searchStep_none g walls max_moves target st stF hstep).1)
      | some path =>
        exact Or.inr (searchStep_avoid_found g walls max_moves target st stF path hstep)
    | inr st2 =>
      rw [hstep] at h
      dsimp only at h
      rcases ih st2 r stF h with h1 | h1
      · rw [h1, searchStep_avoid_inr g walls max_moves target st st2 hstep]
        exact Or.inr rfl
      · rw [h1, searchStep_avoid_inr g walls max_moves target st st2 hstep, addWalls_idem]
        exact Or.inr rfl

/-- When the search starts from a nonempty open set, the final avoid set is
exactly the wall-augmented input set. -/
theorem searchLoop_avoid_of_ne_nil (g : Grid) (walls : List Pos) (max_moves : Nat)
    (target : Pos) (fuel : Nat) (st : SearchState) (r : Option (List AStarNode))
    (stF : SearchState) (hne : st.open_set ≠ [])
    (h : searchLoop g walls max_moves target fuel st = some (r, stF)) :
    stF.avoid = addWalls walls st.avoid := by
  match fuel, h with
  | n + 1, h =>
    unfold searchLoop at h
    cases hstep : searchStep g walls max_moves target st with
    | inl res =>
      obtain ⟨r0, stR⟩ := res
      rw [hstep] at h
      dsimp only at h
      cases h
      cases r with
      | none =>
        exact absurd (searchStep_none g walls max_moves target st stF hstep).2 hne
      | some path =>
        exact searchStep_avoid_found g walls max_moves target st stF path hstep
    | inr st2 =>
      rw [hstep] at h
      dsimp only at h
      rcases searchLoop_avoid g walls max_moves target n st2 r stF h with h1 | h1
      · rw [h1, searchStep_avoid_inr g walls max_moves target st st2 hstep]
      · rw [h1, searchStep_avoid_inr g walls max_moves target st st2 hstep, addWalls_idem]

/-- A searching call of `find_path` (target present) reports the
wall-augmented avoid set back into the player state. -/
theorem find_path_search_avoid (g : Grid) (walls : List Pos) (char_pos : Pos)
    (max_moves : Nat) (t : Pos) (fuel : Nat) (pl : Player) (res : List AStarNode)
    (pl' : Player)
    (h : find_path_search g walls char_pos max_moves (some t) fuel pl = some (res, pl')) :
    pl'.avoid_set = addWalls walls pl.avoid_set := by
  unfold find_path_search at h
  dsimp only at h
  cases hloop : searchLoop g walls max_moves t fuel
      { open_set := [(char_pos, ⟨char_pos, 0, heuristic_distance max_moves t char_pos⟩)],
        closed_set := [], came_from := [], avoid := pl.avoid_set } with
  | none => rw [hloop] at h; cases h
  | some r2 =>
    obtain ⟨r0, stF⟩ := r2
    rw [hloop] at h
    have havoid : stF.avoid = addWalls walls pl.avoid_set :=
      searchLoop_avoid_of_ne_nil g walls max_moves t fuel _ r0 stF (by simp) hloop
    cases r0 with
    | none =>
      dsimp only at h
      cases h
      exact havoid
    | some path =>
      dsimp only at h
      cases h
      exact havoid

/-- A call of `find_path` that does not search leaves the player's memo
fields (path, avoid set, search counter) untouched and only advances the
progress cursor. -/
theorem find_path_cache_hit (g : Grid) (walls : List Pos) (char_pos : Pos)
    (max_moves : Nat) (ints : List Bool) (t : Option Pos) (fuel : Nat) (q : Player)
    (l : List AStarNode) (hq : q.path = some l) (hemp : l.isEmpty = false)
    (hql : q.path_progress + 1 < l.length) (hint : interrupt_path ints = false) :
    find_path g walls char_pos max_moves ints t fuel q =
      some (l.drop (q.path_progress + 1), { q with path_progress := q.path_progress + 1 }) := by
  unfold find_path
  dsimp only
  rw [hq]
  dsimp only
  rw [if_pos ⟨hemp, hql, hint⟩]

/-- C2: with a cached path, the advanced progress index still inside it, and
no interruption predicate firing, `find_path` performs no search (the memo and
the search counter are untouched) and returns exactly the cached path's suffix
at the new index; the immediately following such call returns the strictly
shorter next suffix of the same cached path; and any call that does search
(observable by the search counter changing) is one whose cache was missing,
empty, exhausted, or interrupted. -/
theorem find_path_cache_reuse (g : Grid) (walls : List Pos) (char_pos : Pos)
    (max_moves : Nat) (ints : List Bool) (t : Option Pos) (fuel : Nat) (pl : Player)
    (p : List AStarNode)
    (hpath : pl.path = some p)
    (hlen : pl.path_progress + 1 < p.length)
    (hint : interrupt_path ints = false) :
    (find_path g walls char_pos max_moves ints t fuel pl =
      some (p.drop (pl.path_progress + 1),
        { pl with path_progress := pl.path_progress + 1 })) ∧
    (pl.path_progress + 2 < p.length →
      find_path g walls char_pos max_moves ints t fuel
          { pl with path_progress := pl.path_progress + 1 } =
        some (p.drop (pl.path_progress + 2),
          { pl with path_progress := pl.path_progress + 2 }) ∧
      (p.drop (pl.path_progress + 2)).length < (p.drop (pl.path_progress + 1)).length) ∧
    (∀ (pl2 : Player) (res : List AStarNode) (pl2' : Player),
      find_path g walls char_pos max_moves ints t fuel pl2 = some (res, pl2') →
      pl2'.search_count ≠ pl2.search_count →
      ¬ ∃ q : List AStarNode, pl2.path = some q ∧ q ≠ [] ∧
          pl2.path_progress + 1 < q.length ∧ interrupt_path ints = false) := by
  have hne : p ≠ [] := by
    intro he
    rw [he] at hlen
    simp at hlen
  have hemp : p.isEmpty = false := by
    cases p
    · exact absurd rfl hne
    · rfl
  refine ⟨find_path_cache_hit g walls char_pos max_moves ints t fuel pl p hpath hemp hlen hint,
    ?_, ?_⟩
  · intro h2
    constructor
    · have := find_path_cache_hit g walls char_pos max_moves ints t fuel
        { pl with path_progress := pl.path_progress + 1 } p hpath hemp h2 hint
      exact this
    · rw [List.length_drop, List.length_drop]
      omega
  · intro pl2 res pl2' hcall hcount hex
    obtain ⟨q, hq, hqne, hql, hintq⟩ := hex
    have hqemp : q.isEmpty = false := by
      cases q
      · exact absurd rfl hqne
      · rfl
    have := find_path_cache_hit g walls char_pos max_moves ints t fuel pl2 q hq hqemp hql hintq
    rw [this] at hcall
    cases hcall
    exact hcount rfl

/-- Witness for `find_path_cache_reuse`: a concrete memo with a cached
three-node path at progress 0 returns the two-node suffix without searching
(note the zero fuel: no search could even have run). -/
theorem find_path_cache_reuse_witness :
    find_path ⟨(9, 9)⟩ [] (0, 0) 1 [] (some (2, 0)) 0
        { path := some [⟨(0, 0), 0, 2⟩, ⟨(1, 0), 1, 1⟩, ⟨(2, 0), 2, 0⟩],
          path_progress := 0, avoid_set := ∅, search_count := 7 } =
      some ([⟨(1, 0), 1, 1⟩, ⟨(2, 0), 2, 0⟩],
        { path := some [⟨(0, 0), 0, 2⟩, ⟨(1, 0), 1, 1⟩, ⟨(2, 0), 2, 0⟩],
          path_progress := 1, avoid_set := ∅, search_count := 7 }) :=
  (find_path_cache_reuse ⟨(9, 9)⟩ [] (0, 0) 1 [] (some (2, 0)) 0
    { path := some [⟨(0, 0), 0, 2⟩, ⟨(1, 0), 1, 1⟩, ⟨(2, 0), 2, 0⟩],
      path_progress := 0, avoid_set := ∅, search_count := 7 }
    [⟨(0, 0), 0, 2⟩, ⟨(1, 0), 1, 1⟩, ⟨(2, 0), 2, 0⟩] rfl (by decide) (by decide)).1

/-- C6 counterexample: chaser at (5,5) on an empty 10x10 grid with the
default danger zone 3.  The claim's avoidance set (`specEvaderAvoid`)
contains the diagonal cell (6,6) (Manhattan distance 2 ≤ 3) and the ray cell
(5,8) at distance 3, but the avoid set the source computes
(`runner_avoid_set`, radius hard-coded to 2, four straight rays only)
contains neither. -/
theorem runner_avoid_claim_counterexample :
    specEvaderAvoid ⟨(10, 10)⟩ [] (5, 5) chaser_danger_zone_default (6, 6) ∧
    (6, 6) ∉ runner_avoid_set ⟨(10, 10)⟩ [] (5, 5) ∅ ∧
    specEvaderAvoid ⟨(10, 10)⟩ [] (5, 5) chaser_danger_zone_default (5, 8) ∧
    (5, 8) ∉ runner_avoid_set ⟨(10, 10)⟩ [] (5, 5) ∅ := by
  refine ⟨?_, ?_, ?_, ?_⟩ <;> first
    | decide
    | · unfold specEvaderAvoid chaser_danger_zone_default
        refine ⟨by decide, by decide, by decide⟩

/-- C6 amended: on every Evader turn the avoidance set assigned before the
planner's search is the set of cells exactly 1 or 2 steps from the Pursuer's
position along one of the four grid axes that are in bounds and neither walls
nor in the module-level shared default set (always a subset of the walls in
the program) — the radius is the hard-coded 2, not `chaser_danger_zone`, and
diagonal cells within the danger radius are not included. -/
theorem runner_avoid_set_rays (g : Grid) (walls : List Pos) (p : Pos)
    (D : Finset Pos) (c : Pos) :
    c ∈ runner_avoid_set g walls p D ↔
      c ∈ ([(p.1 + 1, p.2), (p.1 - 1, p.2), (p.1, p.2 + 1), (p.1, p.2 - 1),
            (p.1 + 2, p.2), (p.1 - 2, p.2), (p.1, p.2 + 2), (p.1, p.2 - 2)] : List Pos) ∧
      g.contains_coords c = true ∧ c ∉ D ∧ c ∉ walls := by
  unfold runner_avoid_set
  rw [List.mem_toFinset, mem_surrounding_valid_coords]
  constructor
  · rintro ⟨⟨i, hi, hmem⟩, hc, hD, hW⟩
    refine ⟨?_, hc, hD, hW⟩
    interval_cases i <;> norm_num at hmem ⊢ <;> tauto
  · rintro ⟨hmem, hc, hD, hW⟩
    refine ⟨?_, hc, hD, hW⟩
    norm_num at hmem
    rcases hmem with h | h | h | h | h | h | h | h
    · exact ⟨0, by norm_num, by norm_num [h]⟩
    · exact ⟨0, by norm_num, by norm_num [h]⟩
    · exact ⟨0, by norm_num, by norm_num [h]⟩
    · exact ⟨0, by norm_num, by norm_num [h]⟩
    · exact ⟨1, by norm_num, by norm_num [h]⟩
    · exact ⟨1, by norm_num, by norm_num [h]⟩
    · exact ⟨1, by norm_num, by norm_num [h]⟩
    · exact ⟨1, by norm_num, by norm_num [h]⟩

/-- C10: `surrounding_valid_coords` mutates the avoid set it is given by
inserting every wall before filtering (and its results avoid both the walls
and the given set); a `find_path` call that performs a search (visible on the
search counter) leaves the player's avoid set equal to its wall-augmented
version, so the player's persistent avoid set accumulates all walls after its
first search and keeps them across any later call; and a repeated call on the
already-mutated (shared default) set stays at exactly the wall-augmented
set. -/
theorem surrounding_valid_coords_mutates_avoid_set :
    (∀ (g : Grid) (walls : List Pos) (coords : Pos) (radius : Nat) (A : Finset Pos),
      (g.surrounding_valid_coords walls coords radius A).2 = addWalls walls A ∧
      (∀ w ∈ walls, w ∈ (g.surrounding_valid_coords walls coords radius A).2) ∧
      (∀ c ∈ (g.surrounding_valid_coords walls coords radius A).1, c ∉ A ∧ c ∉ walls) ∧
      ∀ (c2 : Pos) (r2 : Nat),
        (g.surrounding_valid_coords walls c2 r2
            (g.surrounding_valid_coords walls coords radius A).2).2 = addWalls walls A) ∧
    (∀ (g : Grid) (walls : List Pos) (char_pos : Pos) (max_moves : Nat)
      (ints : List Bool) (t : Pos) (fuel : Nat) (pl : Player) (res : List AStarNode)
      (pl' : Player),
      find_path g walls char_pos max_moves ints (some t) fuel pl = some (res, pl') →
      pl'.search_count ≠ pl.search_count →
      pl'.avoid_set = addWalls walls pl.avoid_set) ∧
    (∀ (g : Grid) (walls : List Pos) (char_pos : Pos) (max_moves : Nat)
      (ints : List Bool) (t : Option Pos) (fuel : Nat) (pl : Player)
      (res : List AStarNode) (pl' : Player),
      (∀ w ∈ walls, w ∈ pl.avoid_set) →
      find_path g walls char_pos max_moves ints t fuel pl = some (res, pl') →
      ∀ w ∈ walls, w ∈ pl'.avoid_set) := by
  refine ⟨?_, ?_, ?_⟩
  · intro g walls coords radius A
    refine ⟨rfl, ?_, ?_, ?_⟩
    · intro w hw
      rw [surrounding_valid_coords_snd, addWalls_mem]
      exact Or.inr hw
    · intro c hc
      have := (mem_surrounding_valid_coords g walls coords radius A c).1 hc
      exact ⟨this.2.2.1, this.2.2.2⟩
    · intro c2 r2
      rw [surrounding_valid_coords_snd, surrounding_valid_coords_snd, addWalls_idem]
  · intro g walls char_pos max_moves ints t fuel pl res pl' hcall hcount
    unfold find_path at hcall
    dsimp only at hcall
    cases hpath : pl.path with
    | some q =>
      rw [hpath] at hcall
      dsimp only at hcall
      split at hcall
      · cases hcall
        exact absurd rfl hcount
      · have h2 := find_path_search_avoid g walls char_pos max_moves t fuel _ res pl' hcall
        exact h2
    | none =>
      rw [hpath] at hcall
      dsimp only at hcall
      have h2 := find_path_search_avoid g walls char_pos max_moves t fuel _ res pl' hcall
      exact h2
  · intro g walls char_pos max_moves ints t fuel pl res pl' hsub hcall w hw
    have main : ∀ (q : Player), (∀ v ∈ walls, v ∈ q.avoid_set) →
        find_path_search g walls char_pos max_moves t fuel q = some (res, pl') →
        w ∈ pl'.avoid_set := by
      intro q hqsub hq
      cases t with
      | none =>
        unfold find_path_search at hq
        cases hq
        exact hqsub w hw
      | some tc =>
        rw [find_path_search_avoid g walls char_pos max_moves tc fuel q res pl' hq,
          addWalls_mem]
        exact Or.inr hw
    unfold find_path at hcall
    dsimp only at hcall
    cases hpath : pl.path with
    | some q =>
      rw [hpath] at hcall
      dsimp only at hcall
      split at hcall
      · cases hcall
        exact hsub w hw
      · refine main _ ?_ hcall
        exact fun v hv => hsub v hv
    | none =>
      rw [hpath] at hcall
      dsimp only at hcall
      refine main _ ?_ hcall
      exact fun v hv => hsub v hv

/-- Witness for `surrounding_valid_coords_mutates_avoid_set`: a concrete
searching call on a 2x1 grid with one (off-grid) wall ends with the wall in
the player's avoid set. -/
theorem surrounding_valid_coords_mutates_avoid_set_witness :
    ∃ (res : List AStarNode) (pl' : Player),
      find_path ⟨(2, 1)⟩ [(5, 5)] (0, 0) 1 [] (some (1, 0)) 5 {} = some (res, pl') ∧
      pl'.avoid_set = addWalls [(5, 5)] (∅ : Finset Pos) := by
  refine ⟨[⟨(0, 0), 0, 1⟩, ⟨(1, 0), 1, 0⟩],
    { path := some [⟨(0, 0), 0, 1⟩, ⟨(1, 0), 1, 0⟩], path_progress := 0,
      avoid_set := addWalls [(5, 5)] ∅, search_count := 1 }, ?_, ?_⟩
  · decide
  · exact surrounding_valid_coords_mutates_avoid_set.2.1 ⟨(2, 1)⟩ [(5, 5)] (0, 0) 1 []
      (1, 0) 5 {} [⟨(0, 0), 0, 1⟩, ⟨(1, 0), 1, 0⟩]
      { path := some [⟨(0, 0), 0, 1⟩, ⟨(1, 0), 1, 0⟩], path_progress := 0,
        avoid_set := addWalls [(5, 5)] ∅, search_count := 1 }
      (by decide) (by decide)

/-- A successful lookup is a member of the dict. -/
theorem alookup_mem (l : NodeMap) (p : Pos) (n : AStarNode)
    (h : alookup l p = some n) : (p, n) ∈ l := by
  induction l with
  | nil => cases h
  | cons e t ih =>
    obtain ⟨k, v⟩ := e
    unfold alookup at h
    split at h
    · cases h
      subst_vars
      exact List.mem_cons_self _ _
    · exact List.mem_cons_of_mem _ (ih h)

/-- In a dict with unique keys, membership determines lookup. -/
theorem alookup_of_mem_nodup (l : NodeMap) (p : Pos) (n : AStarNode)
    (hmem : (p, n) ∈ l) (hnd : (l.map Prod.fst).Nodup) : alookup l p = some n := by
  induction l with
  | nil => cases hmem
  | cons e t ih =>
    obtain ⟨k, v⟩ := e
    rw [List.map_cons, List.nodup_cons] at hnd
    rcases List.mem_cons.1 hmem with he | ht
    · cases he
      simp [alookup]
    · have hk : k ≠ p := by
        intro hkp
        subst hkp
        exact hnd.1 (List.mem_map.2 ⟨(k, n), ht, rfl⟩)
      simp only [alookup, if_neg hk]
      exact ih ht hnd.2

/-- Key membership is lookup success. -/
theorem mem_keysF (l : NodeMap) (p : Pos) :
    p ∈ keysF l ↔ ∃ n, alookup l p = some n := by
  induction l with
  | nil => simp [keysF, alookup]
  | cons e t ih =>
    obtain ⟨k, v⟩ := e
    by_cases hk : k = p
    · subst hk
      simp [keysF, alookup]
    · simp only [keysF, List.map_cons, List.toFinset_cons, Finset.mem_insert] at *
      simp only [alookup, if_neg hk]
      constructor
      · rintro (h | h)
        · exact absurd h.symm hk
        · exact ih.1 h
      · intro h
        exact Or.inr (ih.2 h)

/-- Updating a key makes it look up to the new node. -/
theorem alookup_aupdate_self (l : NodeMap) (p : Pos) (n : AStarNode) :
    alookup (aupdate l p n) p = some n := by
  induction l with
  | nil => simp [aupdate, alookup]
  | cons e t ih =>
    obtain ⟨k, v⟩ := e
    by_cases hk : k = p
    · subst hk
      simp [aupdate, alookup]
    · simp [aupdate, alookup, hk, ih]

/-- Updating one key leaves the other lookups unchanged. -/
theorem alookup_aupdate_ne (l : NodeMap) (p q : Pos) (n : AStarNode) (h : q ≠ p) :
    alookup (aupdate l p n) q = alookup l q := by
  have hpq : p ≠ q := fun hh => h hh.symm
  induction l with
  | nil => simp [aupdate, alookup, hpq]
  | cons e t ih =>
    obtain ⟨k, v⟩ := e
    by_cases hk : k = p
    · subst hk
      simp only [aupdate, if_pos rfl, alookup, if_neg hpq]
    · simp only [aupdate, if_neg hk, alookup]
      split
      · rfl
      · exact ih

/-- Removing one key leaves the other lookups unchanged. -/
theorem alookup_aremove_ne (l : NodeMap) (p q : Pos) (h : q ≠ p) :
    alookup (aremove l p) q = alookup l q := by
  have hpq : p ≠ q := fun hh => h hh.symm
  induction l with
  | nil => rfl
  | cons e t ih =>
    obtain ⟨k, v⟩ := e
    by_cases hk : k = p
    · subst hk
      have h1 : aremove ((k, v) :: t) k = t := by
        unfold aremove
        simp
      rw [h1]
      conv_rhs => unfold alookup
      rw [if_neg hpq]
    · simp only [aremove, if_neg hk, alookup]
      split
      · rfl
      · exact ih

/-- Removing an absent key is the identity. -/
theorem aremove_of_none (l : NodeMap) (p : Pos) (h : alookup l p = none) :
    aremove l p = l := by
  induction l with
  | nil => rfl
  | cons e t ih =>
    obtain ⟨k, v⟩ := e
    unfold alookup at h
    split at h
    · cases h
    · rename_i hk
      simp only [aremove, if_neg hk]
      rw [ih h]

/-- The keys after an update on a present key. -/
theorem map_fst_aupdate_present (l : NodeMap) (p : Pos) (n m : AStarNode)
    (h : alookup l p = some m) : (aupdate l p n).map Prod.fst = l.map Prod.fst := by
  induction l with
  | nil => cases h
  | cons e t ih =>
    obtain ⟨k, v⟩ := e
    unfold alookup at h
    split at h
    · rename_i hk
      subst hk
      simp [aupdate]
    · rename_i hk
      simp only [aupdate, if_neg hk, List.map_cons, List.cons.injEq]
      exact ⟨trivial, ih h⟩

/-- The keys after an update on an absent key. -/
theorem map_fst_aupdate_absent (l : NodeMap) (p : Pos) (n : AStarNode)
    (h : alookup l p = none) : (aupdate l p n).map Prod.fst = l.map Prod.fst ++ [p] := by
  induction l with
  | nil => simp [aupdate]
  | cons e t ih =>
    obtain ⟨k, v⟩ := e
    unfold alookup at h
    split at h
    · cases h
    · rename_i hk
      simp only [aupdate, if_neg hk, List.map_cons, List.cons_append, List.cons.injEq]
      exact ⟨trivial, ih h⟩

/-- The keys after a removal. -/
theorem map_fst_aremove (l : NodeMap) (p : Pos) :
    (aremove l p).map Prod.fst = (l.map Prod.fst).erase p := by
  induction l with
  | nil => rfl
  | cons e t ih =>
    obtain ⟨k, v⟩ := e
    by_cases hk : k = p
    · subst hk
      simp [aremove, List.erase_cons_head]
    · simp only [aremove, if_neg hk, List.map_cons]
      rw [List.erase_cons_tail, ih]
      simp [hk]

/-- Key sets after an update. -/
theorem keysF_aupdate (l : NodeMap) (p : Pos) (n : AStarNode) :
    keysF (aupdate l p n) = insert p (keysF l) := by
  cases h : alookup l p with
  | some m =>
    have hp : p ∈ (l.map Prod.fst).toFinset := by
      have h2 := (mem_keysF l p).2 ⟨m, h⟩
      simpa [keysF] using h2
    unfold keysF
    rw [map_fst_aupdate_present l p n m h]
    exact (Finset.insert_eq_self.2 hp).symm
  | none =>
    unfold keysF
    rw [map_fst_aupdate_absent l p n h]
    apply Finset.ext
    intro q
    simp [or_comm]

/-- Update preserves unique keys. -/
theorem nodup_aupdate (l : NodeMap) (p : Pos) (n : AStarNode)
    (h : (l.map Prod.fst).Nodup) : ((aupdate l p n).map Prod.fst).Nodup := by
  cases hl : alookup l p with
  | some m => rw [map_fst_aupdate_present l p n m hl]; exact h
  | none =>
    rw [map_fst_aupdate_absent l p n hl]
    rw [List.nodup_append]
    refine ⟨h, List.nodup_singleton p, ?_⟩
    intro q hq
    simp only [List.mem_singleton]
    intro hqp
    subst hqp
    exact ((mem_keysF l q).1 (by simp [keysF, hq])).elim (fun nn hnn => by rw [hl] at hnn; cases hnn)

/-- Removal preserves unique keys. -/
theorem nodup_aremove (l : NodeMap) (p : Pos)
    (h : (l.map Prod.fst).Nodup) : ((aremove l p).map Prod.fst).Nodup := by
  rw [map_fst_aremove]
  exact h.erase p

/-- After removing a key from a dict with unique keys, it is gone. -/
theorem not_mem_keysF_aremove (l : NodeMap) (p : Pos)
    (h : (l.map Prod.fst).Nodup) : p ∉ keysF (aremove l p) := by
  unfold keysF
  rw [map_fst_aremove]
  simp only [List.mem_toFinset]
  exact h.not_mem_erase

/-- Removal only shrinks the key set. -/
theorem keysF_aremove_subset (l : NodeMap) (p : Pos) :
    keysF (aremove l p) ⊆ keysF l := by
  intro q
  unfold keysF
  rw [map_fst_aremove]
  simp only [List.mem_toFinset]
  exact List.mem_of_mem_erase

/-- Removal keeps all other keys. -/
theorem mem_keysF_aremove_of_ne (l : NodeMap) (p q : Pos) (h : q ≠ p)
    (hq : q ∈ keysF l) : q ∈ keysF (aremove l p) := by
  rw [mem_keysF] at hq ⊢
  rwa [alookup_aremove_ne l p q h]

/-- g-sum after removing a present key. -/
theorem gsum_aremove (l : NodeMap) (p : Pos) (n : AStarNode)
    (h : alookup l p = some n) : gsum (aremove l p) + n.g = gsum l := by
  induction l with
  | nil => cases h
  | cons e t ih =>
    obtain ⟨k, v⟩ := e
    unfold alookup at h
    split at h
    · rename_i hk
      cases h
      subst hk
      simp [aremove, gsum, Nat.add_comm]
    · rename_i hk
      simp only [aremove, if_neg hk, gsum, List.map_cons, List.sum_cons]
      have := ih h
      unfold gsum at this
      omega

/-- g-sum after updating a present key. -/
theorem gsum_aupdate_present (l : NodeMap) (p : Pos) (n old : AStarNode)
    (h : alookup l p = some old) : gsum (aupdate l p n) + old.g = gsum l + n.g := by
  induction l with
  | nil => cases h
  | cons e t ih =>
    obtain ⟨k, v⟩ := e
    unfold alookup at h
    split at h
    · cases h
      rename_i hk
      subst hk
      simp [aupdate, gsum]
      omega
    · rename_i hk
      simp only [aupdate, if_neg hk, gsum, List.map_cons, List.sum_cons]
      have := ih h
      unfold gsum at this
      omega

/-- g-sum after inserting a fresh key. -/
theorem gsum_aupdate_absent (l : NodeMap) (p : Pos) (n : AStarNode)
    (h : alookup l p = none) : gsum (aupdate l p n) = gsum l + n.g := by
  induction l with
  | nil => simp [aupdate, gsum]
  | cons e t ih =>
    obtain ⟨k, v⟩ := e
    unfold alookup at h
    split at h
    · cases h
    · rename_i hk
      simp only [aupdate, if_neg hk, gsum, List.map_cons, List.sum_cons]
      have := ih h
      unfold gsum at this
      omega

/-- Length after removing a present key. -/
theorem length_aremove (l : NodeMap) (p : Pos) (n : AStarNode)
    (h : alookup l p = some n) : (aremove l p).length + 1 = l.length := by
  induction l with
  | nil => cases h
  | cons e t ih =>
    obtain ⟨k, v⟩ := e
    unfold alookup at h
    split at h
    · rename_i hk
      cases h
      subst hk
      simp [aremove]
    · rename_i hk
      simp only [aremove, if_neg hk, List.length_cons]
      have := ih h
      omega

/-- The selected minimal entry is a member of the open set. -/
theorem selectMin_mem (l : NodeMap) (x : Pos × AStarNode)
    (h : selectMin l = some x) : x ∈ l := by
  cases l with
  | nil => cases h
  | cons y t =>
    unfold selectMin at h
    cases h
    have aux : ∀ (t : NodeMap) (a : Pos × AStarNode),
        (t.foldl (fun best z => if z.2.f < best.2.f then z else best) a) = a ∨
        (t.foldl (fun best z => if z.2.f < best.2.f then z else best) a) ∈ t := by
      intro t
      induction t with
      | nil => intro a; exact Or.inl rfl
      | cons z t2 ih =>
        intro a
        simp only [List.foldl_cons]
        rcases ih (if z.2.f < a.2.f then z else a) with h1 | h1
        · rw [h1]
          split
          · exact Or.inr (List.mem_cons_self _ _)
          · exact Or.inl rfl
        · exact Or.inr (List.mem_cons_of_mem _ h1)
    rcases aux t y with h1 | h1
    · rw [h1]; exact List.mem_cons_self _ _
    · exact List.mem_cons_of_mem _ h1

/-- Entries after an update: the new pair or an old entry. -/
theorem mem_aupdate (l : NodeMap) (p : Pos) (n : AStarNode) (pr : Pos × AStarNode)
    (h : pr ∈ aupdate l p n) : pr ∈ l ∨ pr = (p, n) := by
  induction l with
  | nil =>
    simp only [aupdate, List.mem_singleton] at h
    exact Or.inr h
  | cons e t ih =>
    obtain ⟨k, v⟩ := e
    unfold aupdate at h
    split at h
    · rcases List.mem_cons.1 h with h1 | h1
      · exact Or.inr h1
      · exact Or.inl (List.mem_cons_of_mem _ h1)
    · rcases List.mem_cons.1 h with h1 | h1
      · exact Or.inl (h1 ▸ List.mem_cons_self _ _)
      · rcases ih h1 with h2 | h2
        · exact Or.inl (List.mem_cons_of_mem _ h2)
        · exact Or.inr h2

/-- Entries after a removal are old entries. -/
theorem mem_aremove (l : NodeMap) (p : Pos) (pr : Pos × AStarNode)
    (h : pr ∈ aremove l p) : pr ∈ l := by
  induction l with
  | nil =>
    simp only [aremove, List.not_mem_nil] at h
  | cons e t ih =>
    obtain ⟨k, v⟩ := e
    unfold aremove at h
    split at h
    · exact List.mem_cons_of_mem _ h
    · rcases List.mem_cons.1 h with h1 | h1
      · exact h1 ▸ List.mem_cons_self _ _
      · exact List.mem_cons_of_mem _ (ih h1)

/-- Cell set membership is in-bounds containment. -/
theorem mem_cellsF (g : Grid) (p : Pos) : p ∈ cellsF g ↔ g.contains_coords p = true := by
  unfold cellsF Grid.contains_coords
  rw [Finset.mem_product, Finset.mem_Icc, Finset.mem_Icc]
  simp only [Bool.and_eq_true, decide_eq_true_eq]
  omega

/-- A surrounding valid coordinate is in bounds. -/
theorem mem_svc_contains (g : Grid) (walls : List Pos) (p : Pos) (r : Nat)
    (A : Finset Pos) (c : Pos) (h : c ∈ (g.surrounding_valid_coords walls p r A).1) :
    g.contains_coords c = true :=
  ((mem_surrounding_valid_coords g walls p r A c).1 h).2.1

/-- A surrounding valid coordinate differs along exactly one axis, by at
least 1 and at most the radius. -/
theorem one_axis_of_mem_svc (g : Grid) (walls : List Pos) (p : Pos) (r : Nat)
    (A : Finset Pos) (c : Pos) (h : c ∈ (g.surrounding_valid_coords walls p r A).1) :
    one_axis_step r p c := by
  obtain ⟨⟨i, hi, hmem⟩, -, -, -⟩ := (mem_surrounding_valid_coords g walls p r A c).1 h
  unfold one_axis_step
  simp only [List.mem_cons, List.mem_singleton, List.not_mem_nil, or_false] at hmem
  rcases hmem with h1 | h1 | h1 | h1 <;> subst h1 <;> simp <;> omega

/-- A surrounding valid coordinate is at Manhattan offset at least 1. -/
theorem manhattan_pos_of_mem_svc (g : Grid) (walls : List Pos) (p : Pos) (r : Nat)
    (A : Finset Pos) (c : Pos) (h : c ∈ (g.surrounding_valid_coords walls p r A).1) :
    1 ≤ manhattan p c := by
  rcases one_axis_of_mem_svc g walls p r A c h with ⟨-, h1, -⟩ | ⟨-, h1, -⟩ <;>
    · unfold manhattan
      omega

/-- A positive Manhattan offset gives a positive turn distance. -/
theorem distance_pos (a b : Pos) (m : Nat) (hm : 1 ≤ m) (h : 1 ≤ manhattan a b) :
    1 ≤ Grid.distance a b m := by
  unfold Grid.distance
  rw [Nat.le_div_iff_mul_le (by omega)]
  omega

/-- The valid-coordinate list only depends on the wall-augmented avoid set. -/
theorem svc_fst_congr (g : Grid) (walls : List Pos) (p : Pos) (r : Nat)
    (A B : Finset Pos) (h : addWalls walls A = addWalls walls B) :
    (g.surrounding_valid_coords walls p r A).1 = (g.surrounding_valid_coords walls p r B).1 := by
  unfold Grid.surrounding_valid_coords
  dsimp only
  rw [h]

/-- A radius-1 valid coordinate is valid at any positive radius. -/
theorem mem_svc_of_radius_one (g : Grid) (walls : List Pos) (p : Pos) (m : Nat)
    (hm : 1 ≤ m) (A : Finset Pos) (c : Pos)
    (h : c ∈ (g.surrounding_valid_coords walls p 1 A).1) :
    c ∈ (g.surrounding_valid_coords walls p m A).1 := by
  rw [mem_surrounding_valid_coords] at h ⊢
  obtain ⟨⟨i, hi, hmem⟩, h2⟩ := h
  exact ⟨⟨i, by omega, hmem⟩, h2⟩

/-- Failure of a skip test means: not present, or present with strictly
worse g. -/
theorem skip_eq_false (l : NodeMap) (p : Pos) (x : Nat) :
    ((match alookup l p with
      | some cn => decide (cn.g ≤ x)
      | none => false) = false) ↔
    (alookup l p = none ∨ ∃ cn, alookup l p = some cn ∧ x < cn.g) := by
  cases h : alookup l p with
  | none => simp
  | some cn => simp [Nat.lt_iff_add_one_le, Nat.not_le]

/-- Accepting a successor (both skip tests failed) keeps the dicts
well-formed and strictly shrinks (untouched cells, stored g) in
lexicographic order: a fresh position shrinks the untouched set, an
improved open or reopened closed position shrinks the g sum. -/
theorem accept_wf_measure (gr : Grid) (st : SearchState) (nc ns : AStarNode)
    (stA : SearchState)
    (hstA : stA = { st with open_set := aupdate st.open_set ns.pos ns,
                            closed_set := aremove st.closed_set ns.pos,
                            came_from := aupdate st.came_from ns.pos nc })
    (hwf : SearchWF st)
    (hcont : gr.contains_coords ns.pos = true)
    (hC : alookup st.closed_set ns.pos = none ∨
      ∃ cn, alookup st.closed_set ns.pos = some cn ∧ ns.g < cn.g)
    (hO : alookup st.open_set ns.pos = none ∨
      ∃ onode, alookup st.open_set ns.pos = some onode ∧ ns.g < onode.g) :
    SearchWF stA ∧
    (measU gr stA < measU gr st ∨
      (measU gr stA = measU gr st ∧ measS stA < measS st)) := by
  subst hstA
  have hker : keysF (aupdate st.open_set ns.pos ns) = insert ns.pos (keysF st.open_set) :=
    keysF_aupdate st.open_set ns.pos ns
  constructor
  · refine ⟨nodup_aupdate _ _ _ hwf.nodup_open, nodup_aremove _ _ hwf.nodup_closed, ?_, ?_, ?_⟩
    · intro p hp
      rw [hker] at hp
      rcases Finset.mem_insert.1 hp with h1 | h1
      · subst h1
        exact not_mem_keysF_aremove _ _ hwf.nodup_closed
      · intro h2
        exact hwf.disj p h1 (keysF_aremove_subset _ _ h2)
    · intro pr hpr
      rcases mem_aupdate _ _ _ _ hpr with h1 | h1
      · exact hwf.km_open _ h1
      · subst h1
        rfl
    · intro pr hpr
      exact hwf.km_closed _ (mem_aremove _ _ _ hpr)
  · rcases hO with hOn | ⟨onode, hOl, hOg⟩
    · rcases hC with hCn | ⟨cn, hCl, hCg⟩
      · -- fresh position: untouched-cell count drops
        have hrm : aremove st.closed_set ns.pos = st.closed_set := aremove_of_none _ _ hCn
        have hnot : ns.pos ∉ domF st := by
          unfold domF
          rw [Finset.mem_union, mem_keysF, mem_keysF]
          rintro (⟨n1, h1⟩ | ⟨n1, h1⟩)
          · rw [hOn] at h1; cases h1
          · rw [hCn] at h1; cases h1
        have hdomA : domF { st with open_set := aupdate st.open_set ns.pos ns,
                                    closed_set := aremove st.closed_set ns.pos,
                                    came_from := aupdate st.came_from ns.pos nc } =
            insert ns.pos (domF st) := by
          unfold domF
          dsimp only
          rw [hker, hrm]
          ext q
          simp only [Finset.mem_union, Finset.mem_insert]
          tauto
        left
        unfold measU
        apply Finset.card_lt_card
        rw [hdomA]
        rw [Finset.ssubset_iff_of_subset
          (Finset.sdiff_subset_sdiff (le_refl _) (Finset.subset_insert _ _))]
        refine ⟨ns.pos, ?_, ?_⟩
        · rw [Finset.mem_sdiff]
          exact ⟨(mem_cellsF gr ns.pos).2 hcont, hnot⟩
        · rw [Finset.mem_sdiff]
          rintro ⟨-, h2⟩
          exact h2 (Finset.mem_insert_self _ _)
      · -- reopened closed position: g sum drops
        have hdomA : domF { st with open_set := aupdate st.open_set ns.pos ns,
                                    closed_set := aremove st.closed_set ns.pos,
                                    came_from := aupdate st.came_from ns.pos nc } =
            domF st := by
          unfold domF
          dsimp only
          rw [hker]
          ext q
          by_cases hq : q = ns.pos
          · subst hq
            simp only [Finset.mem_union, Finset.mem_insert, true_or, true_iff]
            exact Or.inr ((mem_keysF _ _).2 ⟨cn, hCl⟩)
          · simp only [Finset.mem_union, Finset.mem_insert]
            constructor
            · rintro (h1 | h1)
              · rcases h1 with h1 | h1
                · exact absurd h1 hq
                · exact Or.inl h1
              · exact Or.inr (keysF_aremove_subset _ _ h1)
            · rintro (h1 | h1)
              · exact Or.inl (Or.inr h1)
              · exact Or.inr (mem_keysF_aremove_of_ne _ _ _ hq h1)
        right
        constructor
        · unfold measU
          rw [hdomA]
        · have h1 : gsum (aupdate st.open_set ns.pos ns) = gsum st.open_set + ns.g :=
            gsum_aupdate_absent _ _ _ hOn
          have h2 : gsum (aremove st.closed_set ns.pos) + cn.g = gsum st.closed_set :=
            gsum_aremove _ _ _ hCl
          unfold measS
          dsimp only
          omega
    · -- improved open position: g sum drops
      have hCn : alookup st.closed_set ns.pos = none := by
        rcases hC with h1 | ⟨cn, hCl, -⟩
        · exact h1
        · exact absurd ((mem_keysF _ _).2 ⟨cn, hCl⟩)
            (hwf.disj ns.pos ((mem_keysF _ _).2 ⟨onode, hOl⟩))
      have hrm : aremove st.closed_set ns.pos = st.closed_set := aremove_of_none _ _ hCn
      have hdomA : domF { st with open_set := aupdate st.open_set ns.pos ns,
                                  closed_set := aremove st.closed_set ns.pos,
                                  came_from := aupdate st.came_from ns.pos nc } =
          domF st := by
        unfold domF
        dsimp only
        rw [hker, hrm, Finset.insert_eq_self.2 ((mem_keysF _ _).2 ⟨onode, hOl⟩)]
      right
      constructor
      · unfold measU
        rw [hdomA]
      · have h1 : gsum (aupdate st.open_set ns.pos ns) + onode.g = gsum st.open_set + ns.g :=
          gsum_aupdate_present _ _ _ _ hOl
        unfold measS
        dsimp only
        rw [hrm]
        omega

/-- Expanding the selected node (open to closed) keeps the dicts well-formed,
leaves the untouched-cell count and the g sum unchanged, and shrinks the open
set by one. -/
theorem expand_wf_measure (gr : Grid) (st : SearchState) (nc : AStarNode)
    (st1 : SearchState)
    (hopen : st1.open_set = aremove st.open_set nc.pos)
    (hclosed : st1.closed_set = aupdate st.closed_set nc.pos nc)
    (hwf : SearchWF st)
    (hlook : alookup st.open_set nc.pos = some nc) :
    SearchWF st1 ∧ measU gr st1 = measU gr st ∧ measS st1 = measS st ∧
      measO st1 + 1 = measO st ∧ domF st1 = domF st ∧
      keysF st1.closed_set = insert nc.pos (keysF st.closed_set) := by
  obtain ⟨o1, c1, cf1, a1⟩ := st1
  dsimp only at hopen hclosed
  subst hopen
  subst hclosed
  have hCn : alookup st.closed_set nc.pos = none := by
    cases h : alookup st.closed_set nc.pos with
    | none => rfl
    | some cn =>
      exact absurd ((mem_keysF _ _).2 ⟨cn, h⟩)
        (hwf.disj nc.pos ((mem_keysF _ _).2 ⟨nc, hlook⟩))
  have hkerC : keysF (aupdate st.closed_set nc.pos nc) = insert nc.pos (keysF st.closed_set) :=
    keysF_aupdate st.closed_set nc.pos nc
  have hdom : domF ⟨aremove st.open_set nc.pos, aupdate st.closed_set nc.pos nc, cf1, a1⟩ =
      domF st := by
    unfold domF
    dsimp only
    rw [hkerC]
    ext q
    by_cases hq : q = nc.pos
    · subst hq
      constructor
      · intro _
        exact Finset.mem_union.2 (Or.inl ((mem_keysF _ _).2 ⟨nc, hlook⟩))
      · intro _
        exact Finset.mem_union.2 (Or.inr (Finset.mem_insert_self _ _))
    · simp only [Finset.mem_union, Finset.mem_insert]
      constructor
      · rintro (h1 | h1)
        · exact Or.inl (keysF_aremove_subset _ _ h1)
        · rcases h1 with h1 | h1
          · exact absurd h1 hq
          · exact Or.inr h1
      · rintro (h1 | h1)
        · exact Or.inl (mem_keysF_aremove_of_ne _ _ _ hq h1)
        · exact Or.inr (Or.inr h1)
  refine ⟨⟨nodup_aremove _ _ hwf.nodup_open, nodup_aupdate _ _ _ hwf.nodup_closed, ?_, ?_, ?_⟩,
    ?_, ?_, ?_, hdom, hkerC⟩
  · intro p hp
    have hpo : p ∈ keysF st.open_set := keysF_aremove_subset _ _ hp
    have hpne : p ≠ nc.pos := by
      intro h1
      subst h1
      exact not_mem_keysF_aremove _ _ hwf.nodup_open hp
    rw [hkerC]
    intro h2
    rcases Finset.mem_insert.1 h2 with h3 | h3
    · exact hpne h3
    · exact hwf.disj p hpo h3
  · intro pr hpr
    exact hwf.km_open _ (mem_aremove _ _ _ hpr)
  · intro pr hpr
    rcases mem_aupdate _ _ _ _ hpr with h1 | h1
    · exact hwf.km_closed _ h1
    · subst h1
      rfl
  · unfold measU
    rw [hdom]
  · have h1 : gsum (aremove st.open_set nc.pos) + nc.g = gsum st.open_set :=
      gsum_aremove _ _ _ hlook
    have h2 : gsum (aupdate st.closed_set nc.pos nc) = gsum st.closed_set + nc.g :=
      gsum_aupdate_absent _ _ _ hCn
    unfold measS
    dsimp only
    omega
  · unfold measO
    dsimp only
    exact length_aremove _ _ _ hlook

/-- The successor loop preserves well-formedness, and whenever it changes the
state at all it strictly shrinks (untouched cells, stored g)
lexicographically. -/
theorem process_wf_measure (gr : Grid) (target : Pos) (nc : AStarNode) :
    ∀ (succs : List AStarNode) (st st' : SearchState),
      SearchWF st →
      (∀ ns ∈ succs, gr.contains_coords ns.pos = true) →
      process_successors target nc succs st = Sum.inr st' →
      SearchWF st' ∧
      (st' = st ∨ measU gr st' < measU gr st ∨
        (measU gr st' = measU gr st ∧ measS st' < measS st)) := by
  intro succs
  induction succs with
  | nil =>
    intro st st' hwf hcont h
    cases h
    exact ⟨hwf, Or.inl rfl⟩
  | cons ns rest ih =>
    intro st st' hwf hcont h
    have hcontr : ∀ x ∈ rest, gr.contains_coords x.pos = true := fun x hx =>
      hcont x (List.mem_cons_of_mem _ hx)
    have hcns : gr.contains_coords ns.pos = true := hcont ns (List.mem_cons_self _ _)
    unfold process_successors at h
    dsimp only at h
    split at h
    · exact ih st st' hwf hcontr h
    · split at h
      · exact ih st st' hwf hcontr h
      · rename_i hscl hsop
        rw [Bool.not_eq_true] at hscl hsop
        rw [skip_eq_false] at hscl hsop
        split at h
        · cases h
        · have hacc := accept_wf_measure gr st nc ns _ rfl hwf hcns hscl hsop
          have hrec := ih _ st' hacc.1 hcontr h
          refine ⟨hrec.1, Or.inr ?_⟩
          rcases hrec.2 with h1 | h1 | h1
          · rw [h1]
            exact hacc.2
          · rcases hacc.2 with h2 | h2
            · exact Or.inl (h1.trans h2)
            · exact Or.inl (h2.1 ▸ h1)
          · rcases hacc.2 with h2 | h2
            · exact Or.inl (h1.1 ▸ h2)
            · exact Or.inr ⟨h1.1.trans h2.1, h1.2.trans h2.2⟩

/-- One continuing loop iteration preserves well-formedness and strictly
shrinks the measure (untouched cells, stored g, open size) lexicographically. -/
theorem searchStep_wf_measure (g : Grid) (walls : List Pos) (m : Nat) (t : Pos)
    (st st' : SearchState) (hwf : SearchWF st)
    (h : searchStep g walls m t st = Sum.inr st') :
    SearchWF st' ∧
    (measU g st' < measU g st ∨ (measU g st' = measU g st ∧ measS st' < measS st) ∨
      (measU g st' = measU g st ∧ measS st' = measS st ∧ measO st' < measO st)) := by
  unfold searchStep at h
  cases hsel : selectMin st.open_set with
  | none => rw [hsel] at h; cases h
  | some pnc =>
    obtain ⟨p, nc⟩ := pnc
    rw [hsel] at h
    dsimp only at h
    have hmem := selectMin_mem _ _ hsel
    have hkm : nc.pos = p := hwf.km_open _ hmem
    have hmem2 : (nc.pos, nc) ∈ st.open_set := by rw [hkm]; exact hmem
    have hlook : alookup st.open_set nc.pos = some nc :=
      alookup_of_mem_nodup _ _ _ hmem2 hwf.nodup_open
    split at h
    · cases h
    · rename_i st3 hproc
      cases h
      obtain ⟨hwf1, hU1, hS1, hO1, -, -⟩ := expand_wf_measure g st nc
        { open_set := aremove st.open_set nc.pos,
          closed_set := aupdate st.closed_set nc.pos nc,
          came_from := st.came_from,
          avoid := (g.surrounding_valid_coords walls nc.pos m st.avoid).2 }
        rfl rfl hwf hlook
      have hcontS : ∀ x ∈ (g.surrounding_valid_coords walls nc.pos m st.avoid).1.map
          (fun c => create_a_star_node m nc c t), g.contains_coords x.pos = true := by
        intro x hx
        obtain ⟨c, hc, rfl⟩ := List.mem_map.1 hx
        exact mem_svc_contains g walls nc.pos m _ c hc
      have hres := process_wf_measure g t nc _ _ st' hwf1 hcontS hproc
      refine ⟨hres.1, ?_⟩
      rcases hres.2 with h1 | h1 | h1
      · rw [h1]
        exact Or.inr (Or.inr ⟨hU1, hS1, by omega⟩)
      · exact Or.inl (hU1 ▸ h1)
      · exact Or.inr (Or.inl ⟨h1.1.trans hU1, hS1 ▸ h1.2⟩)

/-- The A* loop terminates: from any well-formed state some fuel makes
`searchLoop` return.  Nested strong induction on the lexicographic measure
(untouched cells, stored g, open size). -/
theorem searchLoop_terminates_aux (g : Grid) (walls : List Pos) (m : Nat) (t : Pos) :
    ∀ (a b c : Nat) (st : SearchState), SearchWF st →
      measU g st = a → measS st = b → measO st = c →
      ∃ fuel r, searchLoop g walls m t fuel st = some r := by
  intro a
  induction a using Nat.strong_induction_on with
  | _ a ihA =>
    intro b
    induction b using Nat.strong_induction_on with
    | _ b ihB =>
      intro c
      induction c using Nat.strong_induction_on with
      | _ c ihC =>
        intro st hwf hU hS hO
        cases hstep : searchStep g walls m t st with
        | inl r =>
          refine ⟨1, r, ?_⟩
          unfold searchLoop
          rw [hstep]
        | inr st2 =>
          obtain ⟨hwf2, hdec⟩ := searchStep_wf_measure g walls m t st st2 hwf hstep
          have hnext : ∃ fuel r, searchLoop g walls m t fuel st2 = some r := by
            rcases hdec with h1 | ⟨h1, h2⟩ | ⟨h1, h2, h3⟩
            · exact ihA (measU g st2) (hU ▸ h1) (measS st2) (measO st2) st2 hwf2 rfl rfl rfl
            · subst hU
              exact ihB (measS st2) (hS ▸ h2) (measO st2) st2 hwf2 h1 rfl rfl
            · subst hU
              subst hS
              exact ihC (measO st2) (hO ▸ h3) st2 hwf2 h1 h2 rfl
          obtain ⟨fuel, r, hr⟩ := hnext
          refine ⟨fuel + 1, r, ?_⟩
          unfold searchLoop
          rw [hstep]
          exact hr

/-- The A* loop terminates from any well-formed state. -/
theorem searchLoop_terminates (g : Grid) (walls : List Pos) (m : Nat) (t : Pos)
    (st : SearchState) (hwf : SearchWF st) :
    ∃ fuel r, searchLoop g walls m t fuel st = some r :=
  searchLoop_terminates_aux g walls m t (measU g st) (measS st) (measO st) st hwf rfl rfl rfl

/-- Reconstructed paths are nonempty. -/
theorem reconstruct_path_ne_nil (cf : NodeMap) (fuel : Nat) (n : AStarNode) :
    reconstruct_path cf fuel n ≠ [] := by
  cases fuel with
  | zero => simp [reconstruct_path]
  | succ f =>
    unfold reconstruct_path
    cases alookup cf n.pos <;> simp

/-- A reconstructed path ends at the node it was reconstructed from. -/
theorem reconstruct_path_getLast (cf : NodeMap) (fuel : Nat) (n : AStarNode) :
    (reconstruct_path cf fuel n).getLast? = some n := by
  cases fuel with
  | zero => rfl
  | succ f =>
    unfold reconstruct_path
    cases alookup cf n.pos with
    | none => rfl
    | some prev => rw [List.getLast?_concat]

/-- If every `came_from` edge is a one-axis move, so is every consecutive
pair of a reconstructed path. -/
theorem reconstruct_path_chain (m : Nat) (cf : NodeMap)
    (hcf : ∀ (p : Pos) (n' : AStarNode), alookup cf p = some n' → one_axis_step m n'.pos p) :
    ∀ (fuel : Nat) (n : AStarNode), valid_steps m (reconstruct_path cf fuel n) := by
  intro fuel
  induction fuel with
  | zero =>
    intro n
    exact List.chain'_singleton _
  | succ f ih =>
    intro n
    unfold valid_steps at ih ⊢
    unfold reconstruct_path
    cases hl : alookup cf n.pos with
    | none => exact List.chain'_singleton _
    | some prev =>
      refine List.Chain'.append (ih prev) (List.chain'_singleton _) ?_
      intro x hx y hy
      rw [reconstruct_path_getLast] at hx
      simp only [Option.mem_def, Option.some_inj] at hx hy
      simp only [List.head?_cons] at hy
      subst hx
      cases hy
      have h2 := hcf n.pos prev hl
      exact h2

/-- Accepting a successor only grows the touched set (by its own position),
only shrinks the closed keys, and adds nothing but that position. -/
theorem accept_dom (st : SearchState) (nc ns : AStarNode) (stA : SearchState)
    (hstA : stA = { st with open_set := aupdate st.open_set ns.pos ns,
                            closed_set := aremove st.closed_set ns.pos,
                            came_from := aupdate st.came_from ns.pos nc }) :
    domF st ⊆ domF stA ∧ ns.pos ∈ domF stA ∧
    keysF stA.closed_set ⊆ keysF st.closed_set ∧
    (∀ p ∈ domF stA, p ∈ domF st ∨ p = ns.pos) := by
  subst hstA
  refine ⟨?_, ?_, ?_, ?_⟩
  · intro p hp
    unfold domF at hp ⊢
    dsimp only
    rw [keysF_aupdate]
    rcases Finset.mem_union.1 hp with h1 | h1
    · exact Finset.mem_union.2 (Or.inl (Finset.mem_insert_of_mem h1))
    · by_cases hpe : p = ns.pos
      · subst hpe
        exact Finset.mem_union.2 (Or.inl (Finset.mem_insert_self _ _))
      · exact Finset.mem_union.2 (Or.inr (mem_keysF_aremove_of_ne _ _ _ hpe h1))
  · unfold domF
    dsimp only
    rw [keysF_aupdate]
    exact Finset.mem_union.2 (Or.inl (Finset.mem_insert_self _ _))
  · dsimp only
    exact keysF_aremove_subset _ _
  · intro p hp
    unfold domF at hp
    dsimp only at hp
    rw [keysF_aupdate] at hp
    rcases Finset.mem_union.1 hp with h1 | h1
    · rcases Finset.mem_insert.1 h1 with h2 | h2
      · exact Or.inr h2
      · exact Or.inl (Finset.mem_union.2 (Or.inl h2))
    · exact Or.inl (Finset.mem_union.2 (Or.inr (keysF_aremove_subset _ _ h1)))

/-- Success of a skip test means: present with no worse g. -/
theorem skip_eq_true (l : NodeMap) (p : Pos) (x : Nat) :
    ((match alookup l p with
      | some cn => decide (cn.g ≤ x)
      | none => false) = true) ↔
    (∃ cn, alookup l p = some cn ∧ cn.g ≤ x) := by
  cases h : alookup l p with
  | none => simp
  | some cn => simp

/-- The successor loop (continue case): the touched set grows, every
successor position ends up touched, closed keys only shrink, nothing but
successor positions is added (so the target stays untouched), and the
`came_from` edge invariant is preserved. -/
theorem process_inv_inr (g : Grid) (walls : List Pos) (m : Nat) (A0 : Finset Pos)
    (target : Pos) (nc : AStarNode) :
    ∀ (succs : List AStarNode) (st st' : SearchState),
      (∀ ns ∈ succs, ns.pos ∈ (g.surrounding_valid_coords walls nc.pos m A0).1) →
      process_successors target nc succs st = Sum.inr st' →
      (domF st ⊆ domF st') ∧
      (∀ ns ∈ succs, ns.pos ∈ domF st') ∧
      (keysF st'.closed_set ⊆ keysF st.closed_set) ∧
      (∀ p ∈ domF st', p ∈ domF st ∨
        p ∈ (g.surrounding_valid_coords walls nc.pos m A0).1) ∧
      (target_free target st → target_free target st') ∧
      (came_from_inv g walls m A0 st → came_from_inv g walls m A0 st') := by
  intro succs
  induction succs with
  | nil =>
    intro st st' hsucc h
    cases h
    refine ⟨Finset.Subset.refl _, ?_, Finset.Subset.refl _,
      fun p hp => Or.inl hp, fun h1 => h1, fun h1 => h1⟩
    intro x hx
    cases hx
  | cons ns rest ih =>
    intro st st' hsucc h
    have hsr : ∀ x ∈ rest, x.pos ∈ (g.surrounding_valid_coords walls nc.pos m A0).1 :=
      fun x hx => hsucc x (List.mem_cons_of_mem _ hx)
    have hsn : ns.pos ∈ (g.surrounding_valid_coords walls nc.pos m A0).1 :=
      hsucc ns (List.mem_cons_self _ _)
    unfold process_successors at h
    dsimp only at h
    split at h
    · rename_i hskip
      rw [skip_eq_true] at hskip
      obtain ⟨cn, hcn, -⟩ := hskip
      have hdom : ns.pos ∈ domF st :=
        Finset.mem_union.2 (Or.inr ((mem_keysF _ _).2 ⟨cn, hcn⟩))
      obtain ⟨hA, hB, hC, hD, hE, hF⟩ := ih st st' hsr h
      refine ⟨hA, ?_, hC, hD, hE, hF⟩
      intro x hx
      rcases List.mem_cons.1 hx with h1 | h1
      · exact hA (h1 ▸ hdom)
      · exact hB x h1
    · split at h
      · rename_i hskip2
        rw [skip_eq_true] at hskip2
        obtain ⟨onode, hon, -⟩ := hskip2
        have hdom : ns.pos ∈ domF st :=
          Finset.mem_union.2 (Or.inl ((mem_keysF _ _).2 ⟨onode, hon⟩))
        obtain ⟨hA, hB, hC, hD, hE, hF⟩ := ih st st' hsr h
        refine ⟨hA, ?_, hC, hD, hE, hF⟩
        intro x hx
        rcases List.mem_cons.1 hx with h1 | h1
        · exact hA (h1 ▸ hdom)
        · exact hB x h1
      · split at h
        · cases h
        · rename_i hnt
          obtain ⟨hA1, hB1, hC1, hD1⟩ := accept_dom st nc ns _ rfl
          obtain ⟨hA, hB, hC, hD, hE, hF⟩ := ih _ st' hsr h
          refine ⟨fun p hp => hA (hA1 hp), ?_, fun p hp => hC1 (hC hp), ?_, ?_, ?_⟩
          · intro x hx
            rcases List.mem_cons.1 hx with h1 | h1
            · exact hA (h1 ▸ hB1)
            · exact hB x h1
          · intro p hp
            rcases hD p hp with h1 | h1
            · rcases hD1 p h1 with h2 | h2
              · exact Or.inl h2
              · exact Or.inr (h2 ▸ hsn)
            · exact Or.inr h1
          · intro htf
            apply hE
            intro hmem
            rcases hD1 target hmem with h2 | h2
            · exact htf h2
            · exact hnt h2.symm
          · intro hcf
            apply hF
            intro p n hl
            dsimp only at hl
            by_cases hpe : p = ns.pos
            · subst hpe
              rw [alookup_aupdate_self] at hl
              cases hl
              exact hsn
            · rw [alookup_aupdate_ne _ _ _ _ hpe] at hl
              exact hcf p n hl

/-- The successor loop (return case): the returned path is nonempty, ends at
the target, every consecutive pair differs along exactly one axis by between
1 and the step budget, and the target itself is a valid successor of the
expanded node. -/
theorem process_inv_inl (g : Grid) (walls : List Pos) (m : Nat) (A0 : Finset Pos)
    (target : Pos) (nc : AStarNode) :
    ∀ (succs : List AStarNode) (st : SearchState) (path : List AStarNode)
      (stR : SearchState),
      (∀ ns ∈ succs, ns.pos ∈ (g.surrounding_valid_coords walls nc.pos m A0).1) →
      came_from_inv g walls m A0 st →
      process_successors target nc succs st = Sum.inl (path, stR) →
      (path ≠ [] ∧ (∃ n : AStarNode, path.getLast? = some n ∧ n.pos = target) ∧
        valid_steps m path) ∧
      target ∈ (g.surrounding_valid_coords walls nc.pos m A0).1 := by
  intro succs
  induction succs with
  | nil =>
    intro st path stR hsucc hcf h
    cases h
  | cons ns rest ih =>
    intro st path stR hsucc hcf h
    have hsr : ∀ x ∈ rest, x.pos ∈ (g.surrounding_valid_coords walls nc.pos m A0).1 :=
      fun x hx => hsucc x (List.mem_cons_of_mem _ hx)
    have hsn : ns.pos ∈ (g.surrounding_valid_coords walls nc.pos m A0).1 :=
      hsucc ns (List.mem_cons_self _ _)
    unfold process_successors at h
    dsimp only at h
    split at h
    · exact ih st path stR hsr hcf h
    · split at h
      · exact ih st path stR hsr hcf h
      · have hcf1 : came_from_inv g walls m A0
            { st with closed_set := aremove st.closed_set ns.pos,
                      came_from := aupdate st.came_from ns.pos nc } := by
          intro p n hl
          dsimp only at hl
          by_cases hpe : p = ns.pos
          · subst hpe
            rw [alookup_aupdate_self] at hl
            cases hl
            exact hsn
          · rw [alookup_aupdate_ne _ _ _ _ hpe] at hl
            exact hcf p n hl
        split at h
        · rename_i htgt
          cases h
          refine ⟨⟨reconstruct_path_ne_nil _ _ _,
            ⟨ns, reconstruct_path_getLast _ _ _, htgt⟩, ?_⟩, htgt ▸ hsn⟩
          exact reconstruct_path_chain m _
            (fun p n' hl => one_axis_of_mem_svc g walls n'.pos m A0 p (hcf1 p n' hl)) _ _
        · refine ih _ path stR hsr ?_ h
          intro p n hl
          exact hcf1 p n hl

/-- One continuing loop iteration preserves all the search invariants. -/
theorem searchStep_inv_inr (g : Grid) (walls : List Pos) (m : Nat) (A0 : Finset Pos)
    (t start : Pos) (st st' : SearchState)
    (hwf : SearchWF st) (hav : avoid_inv walls A0 st)
    (h : searchStep g walls m t st = Sum.inr st') :
    avoid_inv walls A0 st' ∧
    (domF st ⊆ domF st') ∧
    (came_from_inv g walls m A0 st → came_from_inv g walls m A0 st') ∧
    (target_free t st → target_free t st') ∧
    (closed_succ_inv g walls m A0 st → closed_succ_inv g walls m A0 st') ∧
    (reach_inv g walls m A0 start st → reach_inv g walls m A0 start st') := by
  have hav' : avoid_inv walls A0 st' := by
    unfold avoid_inv at hav ⊢
    rw [searchStep_avoid_inr g walls m t st st' h, addWalls_idem]
    exact hav
  unfold searchStep at h
  cases hsel : selectMin st.open_set with
  | none => rw [hsel] at h; cases h
  | some pnc =>
    obtain ⟨p, nc⟩ := pnc
    rw [hsel] at h
    dsimp only at h
    split at h
    · cases h
    · rename_i st3 hproc
      cases h
      have hmem := selectMin_mem _ _ hsel
      have hkm : nc.pos = p := hwf.km_open _ hmem
      have hmem2 : (nc.pos, nc) ∈ st.open_set := by rw [hkm]; exact hmem
      have hlook : alookup st.open_set nc.pos = some nc :=
        alookup_of_mem_nodup _ _ _ hmem2 hwf.nodup_open
      have hncdom : nc.pos ∈ domF st := by
        unfold domF
        exact Finset.mem_union.2 (Or.inl ((mem_keysF _ _).2 ⟨nc, hlook⟩))
      obtain ⟨hwf2, -, -, -, hdomEq, hkeysC⟩ := expand_wf_measure g st nc
        { open_set := aremove st.open_set nc.pos,
          closed_set := aupdate st.closed_set nc.pos nc,
          came_from := st.came_from,
          avoid := (g.surrounding_valid_coords walls nc.pos m st.avoid).2 }
        rfl rfl hwf hlook
      have hfst : (g.surrounding_valid_coords walls nc.pos m st.avoid).1 =
          (g.surrounding_valid_coords walls nc.pos m A0).1 :=
        svc_fst_congr g walls nc.pos m st.avoid A0 hav
      have hsucc : ∀ ns ∈ (g.surrounding_valid_coords walls nc.pos m st.avoid).1.map
          (fun c => create_a_star_node m nc c t),
          ns.pos ∈ (g.surrounding_valid_coords walls nc.pos m A0).1 := by
        intro ns hns
        obtain ⟨c, hc, rfl⟩ := List.mem_map.1 hns
        rw [← hfst]
        exact hc
      obtain ⟨hA, hB, hC, hD, hE, hF⟩ := process_inv_inr g walls m A0 t nc _ _ st' hsucc hproc
      refine ⟨hav', ?_, ?_, ?_, ?_, ?_⟩
      · intro q hq
        exact hA (hdomEq ▸ hq)
      · intro hcf
        apply hF
        intro q n hl
        exact hcf q n hl
      · intro htf
        apply hE
        unfold target_free at htf ⊢
        rw [hdomEq]
        exact htf
      · intro hcs q hq c hc
        have hq2 := hC hq
        rw [hkeysC] at hq2
        rcases Finset.mem_insert.1 hq2 with h1 | h1
        · subst h1
          have hcands : create_a_star_node m nc c t ∈
              (g.surrounding_valid_coords walls nc.pos m st.avoid).1.map
                (fun c2 => create_a_star_node m nc c2 t) :=
            List.mem_map.2 ⟨c, hfst ▸ hc, rfl⟩
          exact hB _ hcands
        · have := hcs q h1 c hc
          exact hA (hdomEq ▸ this)
      · intro hri q hq
        rcases hD q hq with h1 | h1
        · exact hri q (hdomEq ▸ h1)
        · exact Relation.ReflTransGen.tail (hri nc.pos hncdom) h1

/-- A loop iteration that returns a found path: the path is nonempty, ends at
the target with one-axis steps within the budget, and the target is reachable
in the planner's move graph. -/
theorem searchStep_inv_found (g : Grid) (walls : List Pos) (m : Nat) (A0 : Finset Pos)
    (t start : Pos) (st stR : SearchState) (path : List AStarNode)
    (hwf : SearchWF st) (hav : avoid_inv walls A0 st)
    (hcf : came_from_inv g walls m A0 st)
    (h : searchStep g walls m t st = Sum.inl (some path, stR)) :
    (path ≠ [] ∧ (∃ n : AStarNode, path.getLast? = some n ∧ n.pos = t) ∧
      valid_steps m path) ∧
    (reach_inv g walls m A0 start st → Reachable g walls A0 m start t) := by
  unfold searchStep at h
  cases hsel : selectMin st.open_set with
  | none =>
    rw [hsel] at h
    cases h
  | some pnc =>
    obtain ⟨p, nc⟩ := pnc
    rw [hsel] at h
    dsimp only at h
    split at h
    · rename_i pathR stR2 hproc
      cases h
      have hmem := selectMin_mem _ _ hsel
      have hkm : nc.pos = p := hwf.km_open _ hmem
      have hmem2 : (nc.pos, nc) ∈ st.open_set := by rw [hkm]; exact hmem
      have hlook : alookup st.open_set nc.pos = some nc :=
        alookup_of_mem_nodup _ _ _ hmem2 hwf.nodup_open
      have hncdom : nc.pos ∈ domF st := by
        unfold domF
        exact Finset.mem_union.2 (Or.inl ((mem_keysF _ _).2 ⟨nc, hlook⟩))
      have hfst : (g.surrounding_valid_coords walls nc.pos m st.avoid).1 =
          (g.surrounding_valid_coords walls nc.pos m A0).1 :=
        svc_fst_congr g walls nc.pos m st.avoid A0 hav
      have hsucc : ∀ ns ∈ (g.surrounding_valid_coords walls nc.pos m st.avoid).1.map
          (fun c => create_a_star_node m nc c t),
          ns.pos ∈ (g.surrounding_valid_coords walls nc.pos m A0).1 := by
        intro ns hns
        obtain ⟨c, hc, rfl⟩ := List.mem_map.1 hns
        rw [← hfst]
        exact hc
      have hres := process_inv_inl g walls m A0 t nc _ _ _ _ hsucc
        (by intro q n hl; exact hcf q n hl) hproc
      refine ⟨hres.1, ?_⟩
      intro hri
      exact Relation.ReflTransGen.tail (hri nc.pos hncdom) hres.2
    · cases h

/-- If the loop returns a found path, the path is a nonempty one-axis-step
path ending at the target, and the target is reachable in the planner's move
graph from any position the initial state had touched. -/
theorem searchLoop_found (g : Grid) (walls : List Pos) (m : Nat) (A0 : Finset Pos)
    (t start : Pos) :
    ∀ (fuel : Nat) (st : SearchState) (path : List AStarNode) (stF : SearchState),
      SearchWF st → avoid_inv walls A0 st → came_from_inv g walls m A0 st →
      reach_inv g walls m A0 start st →
      searchLoop g walls m t fuel st = some (some path, stF) →
      (path ≠ [] ∧ (∃ n : AStarNode, path.getLast? = some n ∧ n.pos = t) ∧
        valid_steps m path) ∧
      Reachable g walls A0 m start t := by
  intro fuel
  induction fuel with
  | zero =>
    intro st path stF _ _ _ _ h
    cases h
  | succ n ih =>
    intro st path stF hwf hav hcf hri h
    unfold searchLoop at h
    cases hstep : searchStep g walls m t st with
    | inl res =>
      obtain ⟨r0, stR⟩ := res
      rw [hstep] at h
      dsimp only at h
      cases h
      have hres := searchStep_inv_found g walls m A0 t start st stF path hwf hav hcf hstep
      exact ⟨hres.1, hres.2 hri⟩
    | inr st2 =>
      rw [hstep] at h
      dsimp only at h
      obtain ⟨hwf2, -⟩ := searchStep_wf_measure g walls m t st st2 hwf hstep
      obtain ⟨hav2, -, hcf2, -, -, hri2⟩ :=
        searchStep_inv_inr g walls m A0 t start st st2 hwf hav hstep
      exact ih st2 path stF hwf2 hav2 (hcf2 hcf) (hri2 hri) h

/-- If the loop returns without a path, the final state still avoids the
target, its closed set is successor-closed, its open set is empty, and it
covers everything the initial state had touched. -/
theorem searchLoop_none (g : Grid) (walls : List Pos) (m : Nat) (A0 : Finset Pos)
    (t : Pos) :
    ∀ (fuel : Nat) (st stF : SearchState),
      SearchWF st → avoid_inv walls A0 st → closed_succ_inv g walls m A0 st →
      target_free t st →
      searchLoop g walls m t fuel st = some (none, stF) →
      target_free t stF ∧ closed_succ_inv g walls m A0 stF ∧ stF.open_set = [] ∧
        domF st ⊆ domF stF := by
  intro fuel
  induction fuel with
  | zero =>
    intro st stF _ _ _ _ h
    cases h
  | succ n ih =>
    intro st stF hwf hav hcs htf h
    unfold searchLoop at h
    cases hstep : searchStep g walls m t st with
    | inl res =>
      obtain ⟨r0, stR⟩ := res
      rw [hstep] at h
      dsimp only at h
      cases h
      obtain ⟨h1, h2⟩ := searchStep_none g walls m t st stF hstep
      subst h1
      exact ⟨htf, hcs, h2, Finset.Subset.refl _⟩
    | inr st2 =>
      rw [hstep] at h
      dsimp only at h
      obtain ⟨hwf2, -⟩ := searchStep_wf_measure g walls m t st st2 hwf hstep
      obtain ⟨hav2, hdom2, -, htf2, hcs2, -⟩ :=
        searchStep_inv_inr g walls m A0 t t st st2 hwf hav hstep
      obtain ⟨hA, hB, hC, hD⟩ := ih st2 stF hwf2 hav2 (hcs2 hcs) (htf2 htf) h
      exact ⟨hA, hB, hC, fun q hq => hD (hdom2 hq)⟩

/-- When the advanced memo is not usable, `find_path` runs the search on the
cursor-advanced player. -/
theorem find_path_eq_search (g : Grid) (walls : List Pos) (char_pos : Pos) (m : Nat)
    (ints : List Bool) (t : Option Pos) (fuel : Nat) (pl : Player)
    (hcache : cache_valid { pl with path_progress := pl.path_progress + 1 } ints = false) :
    find_path g walls char_pos m ints t fuel pl =
      find_path_search g walls char_pos m t fuel
        { pl with path_progress := pl.path_progress + 1 } := by
  unfold find_path
  dsimp only
  cases hp : pl.path with
  | none => rfl
  | some p =>
    dsimp only
    rw [if_neg]
    rintro ⟨h1, h2, h3⟩
    unfold cache_valid at hcache
    dsimp only at hcache
    rw [hp] at hcache
    simp [h1, h2, h3] at hcache

/-- C1: for a call of `find_path` whose advanced memo is not usable (so the
search runs — the memo-hit branch is the subject of `find_path_cache_reuse`),
with a positive step budget and a target reachable from the character's
position through in-bounds cells outside both the walls and the supplied
avoidance set (single-cell steps), some fuel makes the call return, and the
returned path's last node sits on the target while every consecutive pair of
positions differs along exactly one axis by at least 1 and at most
`max_moves_per_turn`. -/
theorem find_path_reachable_target (g : Grid) (walls : List Pos) (char_pos : Pos)
    (m : Nat) (ints : List Bool) (t : Pos) (pl : Player)
    (hm : 1 ≤ m)
    (hcache : cache_valid { pl with path_progress := pl.path_progress + 1 } ints = false)
    (hreach : Reachable g walls pl.avoid_set 1 char_pos t) :
    ∃ (fuel : Nat) (path : List AStarNode) (pl' : Player),
      find_path g walls char_pos m ints (some t) fuel pl = some (path, pl') ∧
      path ≠ [] ∧ (∃ n : AStarNode, path.getLast? = some n ∧ n.pos = t) ∧
      valid_steps m path := by
  have hwf0 : SearchWF
      { open_set := [(char_pos, ⟨char_pos, 0, heuristic_distance m t char_pos⟩)],
        closed_set := [], came_from := [], avoid := pl.avoid_set } := by
    refine ⟨by simp, by simp, ?_, ?_, ?_⟩
    · intro p hp
      simp [keysF]
    · intro pr hpr
      simp only [List.mem_singleton] at hpr
      subst hpr
      rfl
    · intro pr hpr
      simp at hpr
  obtain ⟨fuel, r, hloop⟩ := searchLoop_terminates g walls m t _ hwf0
  obtain ⟨r0, stF⟩ := r
  have hfp := find_path_eq_search g walls char_pos m ints (some t) fuel pl hcache
  have hav0 : avoid_inv walls pl.avoid_set
      { open_set := [(char_pos, ⟨char_pos, 0, heuristic_distance m t char_pos⟩)],
        closed_set := [], came_from := [], avoid := pl.avoid_set } := rfl
  cases r0 with
  | some path =>
    have hcf0 : came_from_inv g walls m pl.avoid_set
        { open_set := [(char_pos, ⟨char_pos, 0, heuristic_distance m t char_pos⟩)],
          closed_set := [], came_from := [], avoid := pl.avoid_set } := by
      intro p n hl
      cases hl
    have hri0 : reach_inv g walls m pl.avoid_set char_pos
        { open_set := [(char_pos, ⟨char_pos, 0, heuristic_distance m t char_pos⟩)],
          closed_set := [], came_from := [], avoid := pl.avoid_set } := by
      intro p hp
      have hp2 : p = char_pos := by
        simpa [domF, keysF] using hp
      subst hp2
      exact Relation.ReflTransGen.refl
    have hinv := searchLoop_found g walls m pl.avoid_set t char_pos fuel _ path stF
      hwf0 hav0 hcf0 hri0 hloop
    refine ⟨fuel, path,
      { path := some path, path_progress := 0, avoid_set := stF.avoid,
        search_count := pl.search_count + 1 }, ?_, hinv.1.1, hinv.1.2.1, hinv.1.2.2⟩
    rw [hfp]
    unfold find_path_search
    dsimp only
    rw [hloop]
  | none =>
    by_cases hts : t = char_pos
    · refine ⟨fuel, [⟨char_pos, 0, heuristic_distance m t char_pos⟩],
        { path := pl.path, path_progress := pl.path_progress + 1, avoid_set := stF.avoid,
          search_count := pl.search_count + 1 }, ?_, by simp,
        ⟨⟨char_pos, 0, heuristic_distance m t char_pos⟩, by simp, by rw [hts]⟩,
        List.chain'_singleton _⟩
      rw [hfp]
      unfold find_path_search
      dsimp only
      rw [hloop]
    · exfalso
      have hcs0 : closed_succ_inv g walls m pl.avoid_set
          { open_set := [(char_pos, ⟨char_pos, 0, heuristic_distance m t char_pos⟩)],
            closed_set := [], came_from := [], avoid := pl.avoid_set } := by
        intro p hp
        simp [keysF] at hp
      have htf0 : target_free t
          { open_set := [(char_pos, ⟨char_pos, 0, heuristic_distance m t char_pos⟩)],
            closed_set := [], came_from := [], avoid := pl.avoid_set } := by
        unfold target_free domF
        simp [keysF, hts]
      obtain ⟨htf, hcs, hopenF, hsub⟩ := searchLoop_none g walls m pl.avoid_set t fuel _
        stF hwf0 hav0 hcs0 htf0 hloop
      have hall : ∀ x : Pos, Reachable g walls pl.avoid_set 1 char_pos x → x ∈ domF stF := by
        intro x hx
        unfold Reachable at hx
        induction hx with
        | refl =>
          apply hsub
          unfold domF
          simp [keysF]
        | tail hab hbc ihx =>
          rename_i b c
          have hb : b ∈ keysF stF.closed_set := by
            have h2 := ihx
            unfold domF at h2
            rw [hopenF] at h2
            simpa [keysF] using h2
          have hc : c ∈ (g.surrounding_valid_coords walls b m pl.avoid_set).1 :=
            mem_svc_of_radius_one g walls b m hm pl.avoid_set c hbc
          exact hcs b hb c hc
      exact htf (hall t hreach)

/-- C3 (amended): for a call of `find_path` whose advanced memo is not
usable, with a target that is unreachable in the planner's own ray-step move
graph (radius `max_moves_per_turn` over the wall-augmented avoid set), some
fuel makes the call return — the loop terminates, unreachability is not an
error — and the result is a single-node path whose only node sits at the
character's current position. -/
theorem find_path_unreachable_stay (g : Grid) (walls : List Pos) (char_pos : Pos)
    (m : Nat) (ints : List Bool) (t : Pos) (pl : Player)
    (hcache : cache_valid { pl with path_progress := pl.path_progress + 1 } ints = false)
    (hunreach : ¬ Reachable g walls pl.avoid_set m char_pos t) :
    ∃ (fuel : Nat) (n : AStarNode) (pl' : Player),
      find_path g walls char_pos m ints (some t) fuel pl = some ([n], pl') ∧
      n.pos = char_pos := by
  have hwf0 : SearchWF
      { open_set := [(char_pos, ⟨char_pos, 0, heuristic_distance m t char_pos⟩)],
        closed_set := [], came_from := [], avoid := pl.avoid_set } := by
    refine ⟨by simp, by simp, ?_, ?_, ?_⟩
    · intro p hp
      simp [keysF]
    · intro pr hpr
      simp only [List.mem_singleton] at hpr
      subst hpr
      rfl
    · intro pr hpr
      simp at hpr
  obtain ⟨fuel, r, hloop⟩ := searchLoop_terminates g walls m t _ hwf0
  obtain ⟨r0, stF⟩ := r
  have hfp := find_path_eq_search g walls char_pos m ints (some t) fuel pl hcache
  cases r0 with
  | some path =>
    exfalso
    have hcf0 : came_from_inv g walls m pl.avoid_set
        { open_set := [(char_pos, ⟨char_pos, 0, heuristic_distance m t char_pos⟩)],
          closed_set := [], came_from := [], avoid := pl.avoid_set } := by
      intro p n hl
      cases hl
    have hri0 : reach_inv g walls m pl.avoid_set char_pos
        { open_set := [(char_pos, ⟨char_pos, 0, heuristic_distance m t char_pos⟩)],
          closed_set := [], came_from := [], avoid := pl.avoid_set } := by
      intro p hp
      have hp2 : p = char_pos := by
        simpa [domF, keysF] using hp
      subst hp2
      exact Relation.ReflTransGen.refl
    have hinv := searchLoop_found g walls m pl.avoid_set t char_pos fuel _ path stF
      hwf0 rfl hcf0 hri0 hloop
    exact hunreach hinv.2
  | none =>
    refine ⟨fuel, ⟨char_pos, 0, heuristic_distance m t char_pos⟩,
      { path := pl.path, path_progress := pl.path_progress + 1, avoid_set := stF.avoid,
        search_count := pl.search_count + 1 }, ?_, rfl⟩
    rw [hfp]
    unfold find_path_search
    dsimp only
    rw [hloop]

/-- A set of cells containing the start and closed under the planner's moves
witnesses unreachability. -/
theorem not_reachable_of_closed (g : Grid) (walls : List Pos) (A : Finset Pos)
    (radius : Nat) (S : List Pos) (start target : Pos)
    (hs : start ∈ S) (ht : target ∉ S)
    (hcl : ∀ p ∈ S, ∀ q ∈ (g.surrounding_valid_coords walls p radius A).1, q ∈ S) :
    ¬ Reachable g walls A radius start target := by
  intro h
  have hall : ∀ x : Pos, Relation.ReflTransGen (valid_step g walls A radius) start x →
      x ∈ S := by
    intro x hx
    induction hx with
    | refl => exact hs
    | tail hab hbc ih => exact hcl _ ih _ hbc
  exact ht (hall target h)

/-- C3 counterexample: on a 4x1 strip with a wall at (1,0), the target (2,0)
is fully enclosed by obstacle/boundary cells — unreachable from the agent at
(0,0) through single cells — yet `find_path` with the runner's step budget 2
hops the wall (ray steps check only their endpoint) and returns a two-node
path ending at the target, not the claimed single-node stay-in-place path. -/
theorem find_path_enclosed_counterexample :
    ¬ Reachable ⟨(4, 1)⟩ [(1, 0)] (∅ : Finset Pos) 1 (0, 0) (2, 0) ∧
    find_path ⟨(4, 1)⟩ [(1, 0)] (0, 0) 2 [] (some (2, 0)) 10 {} =
      some ([⟨(0, 0), 0, 1⟩, ⟨(2, 0), 1, 0⟩],
        { path := some [⟨(0, 0), 0, 1⟩, ⟨(2, 0), 1, 0⟩], path_progress := 0,
          avoid_set := addWalls [(1, 0)] ∅, search_count := 1 }) ∧
    (([⟨(0, 0), 0, 1⟩, ⟨(2, 0), 1, 0⟩] : List AStarNode).getLast?.map AStarNode.pos =
      some (2, 0)) ∧
    ((2, 0) : Pos) ≠ (0, 0) ∧
    ([⟨(0, 0), 0, 1⟩, ⟨(2, 0), 1, 0⟩] : List AStarNode).length ≠ 1 := by
  refine ⟨?_, by decide, by decide, by decide, by decide⟩
  exact not_reachable_of_closed ⟨(4, 1)⟩ [(1, 0)] ∅ 1 [(0, 0)] (0, 0) (2, 0)
    (by decide) (by decide) (by decide)

/-- Witness for `find_path_unreachable_stay`: a 3x3 grid with walls at (1,0)
and (0,1) walls off the corner (0,0); the runner at (2,2) with budget 1 gets
a single-node path at its own position. -/
theorem find_path_unreachable_stay_witness :
    ∃ (fuel : Nat) (n : AStarNode) (pl' : Player),
      find_path ⟨(3, 3)⟩ [(1, 0), (0, 1)] (2, 2) 1 [] (some (0, 0)) fuel {} =
        some ([n], pl') ∧ n.pos = (2, 2) :=
  find_path_unreachable_stay ⟨(3, 3)⟩ [(1, 0), (0, 1)] (2, 2) 1 [] (0, 0) {}
    (by decide)
    (not_reachable_of_closed ⟨(3, 3)⟩ [(1, 0), (0, 1)] ∅ 1
      [(2, 2), (1, 2), (2, 1), (0, 2), (2, 0), (1, 1)] (2, 2) (0, 0)
      (by decide) (by decide) (by decide))

/-- Witness for `find_path_reachable_target`: an adjacent target on an empty
3x3 grid. -/
theorem find_path_reachable_target_witness :
    ∃ (fuel : Nat) (path : List AStarNode) (pl' : Player),
      find_path ⟨(3, 3)⟩ [] (0, 0) 1 [] (some (1, 0)) fuel {} = some (path, pl') ∧
      path ≠ [] ∧ (∃ n : AStarNode, path.getLast? = some n ∧ n.pos = (1, 0)) ∧
      valid_steps 1 path :=
  find_path_reachable_target ⟨(3, 3)⟩ [] (0, 0) 1 [] (1, 0) {} (by decide) (by decide)
    (Relation.ReflTransGen.single
      (show ((1, 0) : Pos) ∈ (Grid.surrounding_valid_coords ⟨(3, 3)⟩ [] (0, 0) 1 ∅).1 by
        decide))
